import Mathlib

/-!
# crc_incremental: incremental CRC-32 over zero runs

Shallow embedding of `src/crc_incremental.c` and proofs of its specification.

Modelling conventions.

* `U32` values are natural numbers.  The operations `^`, `&` and `>>` never leave
  the 32-bit range; every left shift of the source is taken modulo `2^32` (`shl32`).
  Loop counters that are bounded by their loop guard (`z`, `c`, `b`, `i`, `numZeros`
  in `setup`) are incremented without a modulus because they stay far below `2^32`.
* A statically sized array `T a[n]` is a `CArray T n`: an array together with the proof
  that it has `n` cells.  Every table access of the source carries the proof that its
  index is inside the array.
* The global tables are one explicit state `Tables`; a function that reads the
  globals takes the state, and `setup` maps the state before the call to the state
  after it.
* A buffer `(buf, bufSize)` is the list of the `bufSize` bytes found at `buf`.
* For the safety property the operations are embedded a second time with every table
  access checked against the size of its table (`calcCrcBufChecked` and the like): a read
  or write outside the array, or a guarded loop that runs out of iterations, gives `none`.
-/

namespace CrcIncremental

/-! ## Constants of the source -/

/-- Number of bits in a byte. -/
abbrev NUM_BITS_PER_BYTE : Nat := 8

/-- Number of distinct values in a byte. -/
abbrev NUM_BYTE_VALUES : Nat := 256

/-- Mask to isolate the bits in a byte value. -/
abbrev BYTE_MASK : Nat := NUM_BYTE_VALUES - 1

/-- Width of the CRC register in bits. -/
abbrev CRC_BIT_WIDTH : Nat := 32

/-- Width of the CRC register in bytes. -/
abbrev CRC_BYTE_WIDTH : Nat := (CRC_BIT_WIDTH + NUM_BITS_PER_BYTE - 1) / NUM_BITS_PER_BYTE

/-- The reversed CRC-32 polynomial. -/
abbrev CRC_POLY : Nat := 0xEDB88320

/-- Width of a count of zeros in bits. -/
abbrev COUNT_BIT_WIDTH : Nat := 16

/-- Left shift of a `U32`: the bits shifted past bit 31 are lost. -/
def shl32 (x n : Nat) : Nat := (x <<< n) % 2 ^ 32

/-! ## Tables -/

/-- A statically sized array of `n` cells. -/
structure CArray (α : Type) (n : Nat) where
  /-- The cells. -/
  data : Array α
  /-- There are exactly `n` of them. -/
  size_eq : data.size = n

/-- The read `a[i]`, for an index inside the array. -/
def CArray.get {α : Type} {n : Nat} (a : CArray α n) (i : Nat) (h : i < n) : α :=
  a.data.get ⟨i, Nat.lt_of_lt_of_eq h a.size_eq.symm⟩

/-- The assignment `a[i] = v`, for an index inside the array. -/
def CArray.set {α : Type} {n : Nat} (a : CArray α n) (i : Nat) (h : i < n) (v : α) :
    CArray α n :=
  ⟨a.data.set ⟨i, Nat.lt_of_lt_of_eq h a.size_eq.symm⟩ v,
    (Array.size_set a.data _ v).trans a.size_eq⟩

/-- An array with every cell holding `v` (a static array starts zeroed). -/
def CArray.fill {α : Type} (n : Nat) (v : α) : CArray α n :=
  ⟨Array.mkArray n v, Array.size_mkArray n v⟩

/-- Table `U32[NUM_BYTE_VALUES]`, indexed by a byte value. -/
abbrev CrcByteTable := CArray Nat NUM_BYTE_VALUES

/-- Table `U32[CRC_BIT_WIDTH]`, indexed by the bit position of a set bit. -/
abbrev CrcBitTable := CArray Nat CRC_BIT_WIDTH

/-- Table `CrcByteTable[CRC_BYTE_WIDTH]`: maps a full CRC one byte at a time. -/
abbrev CrcFullMap := CArray CrcByteTable CRC_BYTE_WIDTH

/-- The global tables of the program. -/
structure Tables where
  /-- Provides CRC adjustment given current low byte of CRC. -/
  crcDataTable : CrcByteTable
  /-- Indexed by the bit position of a set bit in a count of zeros. -/
  crcZbitTables : CArray CrcBitTable COUNT_BIT_WIDTH
  /-- Maps a CRC to the next CRC given a run of 1492 zeros. -/
  zRun1492 : CrcFullMap

/-! ## Loops -/

/-- State of `for (i = 0; i < n; i++) body` after the iterations `i = 0, ..., k - 1`,
for a body that does not assign `i`. -/
def forLoopAux {σ : Type} (n : Nat) (body : (i : Nat) → i < n → σ → σ) :
    (k : Nat) → k ≤ n → σ → σ
  | 0, _, s => s
  | k + 1, h, s =>
    body k (Nat.lt_of_succ_le h) (forLoopAux n body k (Nat.le_of_succ_le h) s)

/-- The loop `for (i = 0; i < n; i++) body`: all `n` iterations, in increasing order
of `i`; the body receives the proof of the loop guard `i < n`. -/
def forLoop {σ : Type} (n : Nat) (body : (i : Nat) → i < n → σ → σ) (s : σ) : σ :=
  forLoopAux n body n (Nat.le_refl n) s

/-! ## The operations -/

/-- Compute new CRC given current CRC and incoming data byte (macro of the source). -/
def CALC_CRC_BYTE (crcDataTable : CrcByteTable) (crcIn b : Nat) : Nat :=
  crcDataTable.get ((crcIn ^^^ b) &&& BYTE_MASK)
      (Nat.and_lt_two_pow _ (by decide) : (crcIn ^^^ b) &&& BYTE_MASK < 2 ^ 8)
    ^^^ (crcIn >>> NUM_BITS_PER_BYTE)

/-- CRC of a buffer: `while (bufSize--) { crc = CALC_CRC_BYTE(crc, *p); p++; }`. -/
def calcCrcBuf (T : Tables) : Nat → List Nat → Nat
  | crc, [] => crc
  | crc, b :: p => calcCrcBuf T (CALC_CRC_BYTE T.crcDataTable crc b) p

/-- Body of `if (numZeros & zerosMask)` in `calcCrcZeros`: the inner loop over the bit
positions `c` of `crc`, with loop state `(crcXor, crcMask)`; the value is the final
`crcXor`, which the source assigns to `crc`. -/
def applyBitTable (tbl : CrcBitTable) (crc : Nat) : Nat :=
  (forLoop CRC_BIT_WIDTH
    (fun c hc (st : Nat × Nat) =>
      ((if crc &&& st.2 ≠ 0 then st.1 ^^^ tbl.get c hc else st.1), shl32 st.2 1))
    (0, 1)).1

/-- The loop `for (z = 0; z < COUNT_BIT_WIDTH && numZeros >= zerosMask; z++)` of
`calcCrcZeros`, from the loop state `(z, zerosMask, crc)`.  The first argument bounds
the number of iterations still allowed; the guard `z < COUNT_BIT_WIDTH` ends the loop
after at most `COUNT_BIT_WIDTH - z` iterations (see `calcCrcZerosLoop_fuel`). -/
def calcCrcZerosLoop (T : Tables) (numZeros : Nat) : Nat → Nat → Nat → Nat → Nat
  | 0, _, _, crc => crc
  | fuel + 1, z, zerosMask, crc =>
    if h : z < COUNT_BIT_WIDTH ∧ numZeros ≥ zerosMask then
      calcCrcZerosLoop T numZeros fuel (z + 1) (shl32 zerosMask 1)
        (if numZeros &&& zerosMask ≠ 0 then applyBitTable (T.crcZbitTables.get z h.1) crc
         else crc)
    else crc

/-- CRC after a run of `numZeros` zero bytes, by the binary expansion of `numZeros`. -/
def calcCrcZeros (T : Tables) (crcIn numZeros : Nat) : Nat :=
  if crcIn = 0 then 0
  else calcCrcZerosLoop T numZeros COUNT_BIT_WIDTH 0 1 crcIn

/-- CRC after a fixed run of zeros through a full map; loop state `(crc, crcIn)`,
`(U8) crcIn` is `crcIn % 256`. -/
def calcCrcFullMap (crcIn : Nat) (map : CrcFullMap) : Nat :=
  (forLoop CRC_BYTE_WIDTH
    (fun b hb (st : Nat × Nat) =>
      (st.1 ^^^ (map.get b hb).get (st.2 % NUM_BYTE_VALUES) (Nat.mod_lt _ (by decide)),
        st.2 >>> NUM_BITS_PER_BYTE))
    (0, crcIn)).1

/-- The assignment `map[b][i] = v`. -/
def setMap (map : CrcFullMap) (b : Nat) (hb : b < CRC_BYTE_WIDTH) (i : Nat)
    (hi : i < NUM_BYTE_VALUES) (v : Nat) : CrcFullMap :=
  map.set b hb ((map.get b hb).set i hi v)

/-- Fill `map` for a run of `numZeros` zeros; reads `crcZbitTables` through
`calcCrcZeros`. -/
def setupFullZeroMap (T : Tables) (map : CrcFullMap) (numZeros : Nat) : CrcFullMap :=
  forLoop NUM_BYTE_VALUES
    (fun i hi map =>
      forLoop CRC_BYTE_WIDTH
        (fun b hb map =>
          setMap map b hb i hi (calcCrcZeros T (shl32 i (b * NUM_BITS_PER_BYTE)) numZeros))
        map)
    map

/-- One round of the bit loop in `setup`. -/
def crcBitStep (crc : Nat) : Nat :=
  if crc &&& 1 ≠ 0 then (crc >>> 1) ^^^ CRC_POLY else crc >>> 1

/-- The bit loop of `setup` from `crc = i`: the value stored in `crcDataTable[i]`. -/
def crcOfByte (i : Nat) : Nat :=
  forLoop NUM_BITS_PER_BYTE (fun _ _ crc => crcBitStep crc) i

/-- First part of `setup`: the data map for byte-at-a-time CRC calculation. -/
def setupDataTable (T : Tables) : Tables :=
  { T with
    crcDataTable :=
      forLoop NUM_BYTE_VALUES (fun i hi tbl => tbl.set i hi (crcOfByte i)) T.crcDataTable }

/-- The loop `while (numZeros < maxZeros) { crc = CALC_CRC_BYTE(crc, 0x00); numZeros++; }`
of `setup`, loop state `(crc, numZeros)`.  The first argument bounds the number of
iterations still allowed; `maxZeros - numZeros` iterations end the loop (see
`zeroFill_enough`). -/
def zeroFill (dt : CrcByteTable) (maxZeros : Nat) : Nat → Nat × Nat → Nat × Nat
  | 0, st => st
  | fuel + 1, st =>
    if st.2 < maxZeros then zeroFill dt maxZeros fuel (CALC_CRC_BYTE dt st.1 0x00, st.2 + 1)
    else st

/-- The assignment `crcZbitTables[z][c] = v`. -/
def setZbit (zt : CArray CrcBitTable COUNT_BIT_WIDTH) (z : Nat) (hz : z < COUNT_BIT_WIDTH)
    (c : Nat) (hc : c < CRC_BIT_WIDTH) (v : Nat) : CArray CrcBitTable COUNT_BIT_WIDTH :=
  zt.set z hz ((zt.get z hz).set c hc v)

/-- Second part of `setup`: `crcZbitTables` for handling runs of zeros.  The state of
the loop over `z` is `((crc, numZeros), crcZbitTables)`. -/
def setupZbitTables (T : Tables) : Tables :=
  { T with
    crcZbitTables :=
      forLoop CRC_BIT_WIDTH
        (fun c hc zt =>
          (forLoop COUNT_BIT_WIDTH
            (fun z hz (st : (Nat × Nat) × CArray CrcBitTable COUNT_BIT_WIDTH) =>
              let maxZeros := shl32 1 z
              let st1 := zeroFill T.crcDataTable maxZeros maxZeros st.1
              (st1, setZbit st.2 z hz c hc st1.1))
            ((shl32 1 c, 0), zt)).2)
        T.crcZbitTables }

/-- Third part of `setup`: `setupFullZeroMap(zRun1492, 1492)`. -/
def setupZRun1492 (T : Tables) : Tables :=
  { T with zRun1492 := setupFullZeroMap T T.zRun1492 1492 }

/-- The function `setup`: from the tables before the call to the tables after it. -/
def setup (T : Tables) : Tables :=
  setupZRun1492 (setupZbitTables (setupDataTable T))

/-- The tables when the program starts: static storage is zeroed. -/
def Tables.start : Tables :=
  ⟨CArray.fill _ 0, CArray.fill _ (CArray.fill _ 0), CArray.fill _ (CArray.fill _ 0)⟩

/-! ## Reference functions used in the proofs -/

/-- The byte update with the table lookup replaced by the bit loop. -/
def byteStep (crc b : Nat) : Nat :=
  crcOfByte ((crc ^^^ b) &&& BYTE_MASK) ^^^ (crc >>> NUM_BITS_PER_BYTE)

/-- The CRC state after `n` zero bytes, one byte at a time. -/
def zeroRun (n crc : Nat) : Nat :=
  (fun c => byteStep c 0)^[n] crc

/-- XOR of the cells `tbl[c]` for the set bits `c < k` of `crc`. -/
def xorCols (tbl : CrcBitTable) (crc : Nat) : (k : Nat) → k ≤ CRC_BIT_WIDTH → Nat
  | 0, _ => 0
  | k + 1, h =>
    if crc.testBit k then xorCols tbl crc k (Nat.le_of_succ_le h) ^^^ tbl.get k h
    else xorCols tbl crc k (Nat.le_of_succ_le h)

/-- The loop of `calcCrcZeros` without the exit test `numZeros >= zerosMask` and with
`numZeros & zerosMask` read as bit `z` of `numZeros`. -/
def bitsLoop (zt : CArray CrcBitTable COUNT_BIT_WIDTH) (numZeros : Nat) : Nat → Nat → Nat → Nat
  | 0, _, crc => crc
  | fuel + 1, z, crc =>
    if h : z < COUNT_BIT_WIDTH then
      bitsLoop zt numZeros fuel (z + 1)
        (if numZeros.testBit z then applyBitTable (zt.get z h) crc else crc)
    else crc

/-- The single-bit step in the words of the specification: `x -> (x >> 1) XOR 0xEDB88320`
if `x` is odd, else `x >> 1`. -/
def specBitStep (x : Nat) : Nat :=
  if x % 2 = 1 then (x >>> 1) ^^^ 0xEDB88320 else x >>> 1

/-- The data table holds the bit-loop value of every byte. -/
def DataTableBuilt (dt : CrcByteTable) : Prop :=
  ∀ i (h : i < NUM_BYTE_VALUES), dt.get i h = crcOfByte i

/-- Cell `(z, c)` of the zero-bit tables holds the state reached from `2^c` after `2^z`
zero bytes. -/
def ZbitTablesBuilt (zt : CArray CrcBitTable COUNT_BIT_WIDTH) : Prop :=
  ∀ z (hz : z < COUNT_BIT_WIDTH) c (hc : c < CRC_BIT_WIDTH),
    (zt.get z hz).get c hc = zeroRun (2 ^ z) (2 ^ c)

/-- Loop of `polyMul` over the bit positions `k - 1, ..., 0` of `s`; `t` is the current
multiple and `acc` the XOR collected so far. -/
def mulLoop (s : Nat) : Nat → Nat → Nat → Nat
  | 0, _, acc => acc
  | k + 1, t, acc => mulLoop s k (crcBitStep t) (if s.testBit k then acc ^^^ t else acc)

/-- XOR, over the set bits `c < 32` of `s`, of `a` advanced by `31 - c` bit steps. -/
def polyMul (a s : Nat) : Nat := mulLoop s 32 a 0

/-! ## The operations with every table access checked -/

/-- The read `a[i]` with its bounds check made explicit: `none` outside the array. -/
def CArray.getChecked {α : Type} {n : Nat} (a : CArray α n) (i : Nat) : Option α :=
  if h : i < n then some (a.get i h) else none

/-- The assignment `a[i] = v` with its bounds check made explicit: `none` outside the
array. -/
def CArray.setChecked {α : Type} {n : Nat} (a : CArray α n) (i : Nat) (v : α) :
    Option (CArray α n) :=
  if h : i < n then some (a.set i h v) else none

/-- State of `for (i = 0; i < n; i++) body` after the iterations `i = 0, ..., k - 1`, for a
body that can fail; a failed iteration fails the loop. -/
def forLoopCheckedAux {σ : Type} (body : Nat → σ → Option σ) : Nat → σ → Option σ
  | 0, s => some s
  | k + 1, s => (forLoopCheckedAux body k s).bind (body k)

/-- The loop `for (i = 0; i < n; i++) body` for a body that can fail. -/
def forLoopChecked {σ : Type} (n : Nat) (body : Nat → σ → Option σ) (s : σ) : Option σ :=
  forLoopCheckedAux body n s

/-- `CALC_CRC_BYTE` with the access to `crcDataTable` checked. -/
def CALC_CRC_BYTE_checked (crcDataTable : CrcByteTable) (crcIn b : Nat) : Option Nat :=
  (crcDataTable.getChecked ((crcIn ^^^ b) &&& BYTE_MASK)).map
    (fun v => v ^^^ (crcIn >>> NUM_BITS_PER_BYTE))

/-- `calcCrcBuf` with every table access checked. -/
def calcCrcBufChecked (T : Tables) : Nat → List Nat → Option Nat
  | crc, [] => some crc
  | crc, b :: p =>
    (CALC_CRC_BYTE_checked T.crcDataTable crc b).bind (fun crc1 => calcCrcBufChecked T crc1 p)

/-- The inner loop of `calcCrcZeros` with the accesses `crcZbitTables[z][c]` checked; loop
state `(crcXor, crcMask)`. -/
def applyBitTableChecked (zt : CArray CrcBitTable COUNT_BIT_WIDTH) (z crc : Nat) :
    Option Nat :=
  (forLoopChecked CRC_BIT_WIDTH
    (fun c (st : Nat × Nat) =>
      if crc &&& st.2 ≠ 0 then
        ((zt.getChecked z).bind (fun row => row.getChecked c)).map
          (fun v => (st.1 ^^^ v, shl32 st.2 1))
      else some (st.1, shl32 st.2 1))
    (0, 1)).map (fun st => st.1)

/-- The loop of `calcCrcZeros` with every table access checked.  The first argument bounds
the number of iterations; running out of iterations while the loop guard still holds is a
failure. -/
def calcCrcZerosLoopChecked (T : Tables) (numZeros : Nat) :
    Nat → Nat → Nat → Nat → Option Nat
  | 0, z, zerosMask, crc =>
    if z < COUNT_BIT_WIDTH ∧ numZeros ≥ zerosMask then none else some crc
  | fuel + 1, z, zerosMask, crc =>
    if z < COUNT_BIT_WIDTH ∧ numZeros ≥ zerosMask then
      (if numZeros &&& zerosMask ≠ 0 then applyBitTableChecked T.crcZbitTables z crc
       else some crc).bind
        (fun crc1 => calcCrcZerosLoopChecked T numZeros fuel (z + 1) (shl32 zerosMask 1) crc1)
    else some crc

/-- `calcCrcZeros` with every table access checked. -/
def calcCrcZerosChecked (T : Tables) (crcIn numZeros : Nat) : Option Nat :=
  if crcIn = 0 then some 0
  else calcCrcZerosLoopChecked T numZeros COUNT_BIT_WIDTH 0 1 crcIn

/-- `calcCrcFullMap` with the accesses `map[b][(U8) crcIn]` checked. -/
def calcCrcFullMapChecked (crcIn : Nat) (map : CrcFullMap) : Option Nat :=
  (forLoopChecked CRC_BYTE_WIDTH
    (fun b (st : Nat × Nat) =>
      ((map.getChecked b).bind (fun row => row.getChecked (st.2 % NUM_BYTE_VALUES))).map
        (fun v => (st.1 ^^^ v, st.2 >>> NUM_BITS_PER_BYTE)))
    (0, crcIn)).map (fun st => st.1)

/-- The assignment `map[b][i] = v` with both indices checked. -/
def setMapChecked (map : CrcFullMap) (b i v : Nat) : Option CrcFullMap :=
  (map.getChecked b).bind
    (fun row => (row.setChecked i v).bind (fun row1 => map.setChecked b row1))

/-- `setupFullZeroMap` with every table access checked. -/
def setupFullZeroMapChecked (T : Tables) (map : CrcFullMap) (numZeros : Nat) :
    Option CrcFullMap :=
  forLoopChecked NUM_BYTE_VALUES
    (fun i map =>
      forLoopChecked CRC_BYTE_WIDTH
        (fun b map =>
          (calcCrcZerosChecked T (shl32 i (b * NUM_BITS_PER_BYTE)) numZeros).bind
            (fun v => setMapChecked map b i v))
        map)
    map

/-! ## Arrays and loops -/

theorem CArray.get_set {α : Type} {n : Nat} (a : CArray α n) (i : Nat) (hi : i < n) (v : α)
    (j : Nat) (hj : j < n) :
    (a.set i hi v).get j hj = if j = i then v else a.get j hj := by
  unfold CArray.get CArray.set
  simp only [Array.get_eq_getElem, Array.getElem_set]
  by_cases h : j = i
  · subst h; simp
  · have h2 : ¬ i = j := fun e => h e.symm
    simp [h, h2]

theorem CArray.get_set_self {α : Type} {n : Nat} (a : CArray α n) (i : Nat) (hi : i < n)
    (v : α) : (a.set i hi v).get i hi = v := by
  rw [CArray.get_set]; simp

theorem CArray.get_set_other {α : Type} {n : Nat} (a : CArray α n) (i : Nat) (hi : i < n)
    (v : α) (j : Nat) (hj : j < n) (h : j ≠ i) : (a.set i hi v).get j hj = a.get j hj := by
  rw [CArray.get_set]; simp [h]

theorem CArray.get_index {α : Type} {n : Nat} (a : CArray α n) (i j : Nat) (hi : i < n)
    (hj : j < n) (h : i = j) : a.get i hi = a.get j hj := by
  subst h; rfl

theorem CArray.ext {α : Type} {n : Nat} (a b : CArray α n)
    (h : ∀ i (hi : i < n), a.get i hi = b.get i hi) : a = b := by
  cases a with
  | mk da ha =>
    cases b with
    | mk db hb =>
      have hd : da = db :=
        Array.ext da db (ha.trans hb.symm) (fun i h1 _ => h i (ha ▸ h1))
      subst hd
      rfl

theorem Tables.eq_of_fields (T1 T2 : Tables) (h1 : T1.crcDataTable = T2.crcDataTable)
    (h2 : T1.crcZbitTables = T2.crcZbitTables) (h3 : T1.zRun1492 = T2.zRun1492) : T1 = T2 := by
  cases T1; cases T2; simp_all

theorem forLoopAux_inv {σ : Type} (n : Nat) (body : (i : Nat) → i < n → σ → σ)
    (P : Nat → σ → Prop) (s : σ) (h0 : P 0 s)
    (hstep : ∀ i (hi : i < n) (t : σ), P i t → P (i + 1) (body i hi t)) :
    ∀ k (hk : k ≤ n), P k (forLoopAux n body k hk s)
  | 0, _ => h0
  | k + 1, hk => hstep k _ _ (forLoopAux_inv n body P s h0 hstep k (Nat.le_of_succ_le hk))

/-- Invariant rule of the `for` loop. -/
theorem forLoop_inv {σ : Type} (n : Nat) (body : (i : Nat) → i < n → σ → σ)
    (P : Nat → σ → Prop) (s : σ) (h0 : P 0 s)
    (hstep : ∀ i (hi : i < n) (t : σ), P i t → P (i + 1) (body i hi t)) :
    P n (forLoop n body s) :=
  forLoopAux_inv n body P s h0 hstep n (Nat.le_refl n)

/-! ## The bit loop is linear over XOR -/

theorem shiftRight_xor (a b n : Nat) : (a ^^^ b) >>> n = a >>> n ^^^ b >>> n := by
  apply Nat.eq_of_testBit_eq
  intro i
  simp only [Nat.testBit_shiftRight, Nat.testBit_xor]

theorem xor_xor_xor_cancel (a b p : Nat) : (a ^^^ p) ^^^ (b ^^^ p) = a ^^^ b := by
  apply Nat.eq_of_testBit_eq
  intro i
  simp only [Nat.testBit_xor]
  cases a.testBit i <;> cases b.testBit i <;> cases p.testBit i <;> rfl

theorem crcBitStep_xor (x y : Nat) : crcBitStep (x ^^^ y) = crcBitStep x ^^^ crcBitStep y := by
  unfold crcBitStep
  simp only [Nat.and_one_is_mod, shiftRight_xor]
  have hxy : (x ^^^ y) % 2 = (x + y) % 2 := Nat.xor_mod_two_eq
  rcases Nat.mod_two_eq_zero_or_one x with hx | hx <;>
    rcases Nat.mod_two_eq_zero_or_one y with hy | hy
  · have h : (x ^^^ y) % 2 = 0 := by omega
    simp [hx, hy, h]
  · have h : (x ^^^ y) % 2 = 1 := by omega
    simp [hx, hy, h, Nat.xor_assoc]
  · have h : (x ^^^ y) % 2 = 1 := by omega
    simp only [hx, hy, h]
    simp
    ac_rfl
  · have h : (x ^^^ y) % 2 = 0 := by omega
    simp only [hx, hy, h]
    simp
    exact (xor_xor_xor_cancel _ _ _).symm

theorem crcBitStep_zero : crcBitStep 0 = 0 := by decide

theorem crcBitStep_lt (x : Nat) (h : x < 2 ^ 32) : crcBitStep x < 2 ^ 32 := by
  unfold crcBitStep
  have h1 : x >>> 1 < 2 ^ 32 := by
    rw [Nat.shiftRight_eq_div_pow]
    exact Nat.lt_of_le_of_lt (Nat.div_le_self _ _) h
  split
  · exact Nat.xor_lt_two_pow h1 (by decide)
  · exact h1

theorem crcOfByte_eq (i : Nat) : crcOfByte i = crcBitStep^[8] i := rfl

theorem crcOfByte_xor (x y : Nat) : crcOfByte (x ^^^ y) = crcOfByte x ^^^ crcOfByte y := by
  simp only [crcOfByte_eq, Function.iterate_succ, Function.iterate_zero, Function.comp,
    crcBitStep_xor, id]

theorem crcOfByte_zero : crcOfByte 0 = 0 := by decide

theorem crcOfByte_lt (x : Nat) (h : x < 2 ^ 32) : crcOfByte x < 2 ^ 32 := by
  rw [crcOfByte_eq]
  simp only [Function.iterate_succ, Function.iterate_zero, Function.comp, id]
  exact crcBitStep_lt _ (crcBitStep_lt _ (crcBitStep_lt _ (crcBitStep_lt _
    (crcBitStep_lt _ (crcBitStep_lt _ (crcBitStep_lt _ (crcBitStep_lt _ h)))))))

/-! ## The byte update and the buffer CRC -/

theorem xor_pair_cancel (a c b s t : Nat) :
    ((a ^^^ b) ^^^ s) ^^^ ((c ^^^ b) ^^^ t) = (a ^^^ c) ^^^ (s ^^^ t) := by
  apply Nat.eq_of_testBit_eq
  intro i
  simp only [Nat.testBit_xor]
  cases a.testBit i <;> cases b.testBit i <;> cases c.testBit i <;> cases s.testBit i <;>
    cases t.testBit i <;> rfl

theorem CALC_CRC_BYTE_eq (dt : CrcByteTable) (h : DataTableBuilt dt) (crc b : Nat) :
    CALC_CRC_BYTE dt crc b = byteStep crc b := by
  unfold CALC_CRC_BYTE byteStep
  rw [h]

theorem byteStep_xor_same (c1 c2 b : Nat) :
    byteStep c1 b ^^^ byteStep c2 b = byteStep (c1 ^^^ c2) 0 := by
  unfold byteStep
  simp only [Nat.xor_zero, Nat.and_xor_distrib_right, crcOfByte_xor, shiftRight_xor]
  exact xor_pair_cancel _ _ _ _ _

theorem byteStep_zero : byteStep 0 0 = 0 := by decide

theorem byteStep_xor (c1 c2 : Nat) :
    byteStep (c1 ^^^ c2) 0 = byteStep c1 0 ^^^ byteStep c2 0 :=
  (byteStep_xor_same c1 c2 0).symm

theorem byteStep_lt (crc b : Nat) (h : crc < 2 ^ 32) : byteStep crc b < 2 ^ 32 := by
  unfold byteStep
  apply Nat.xor_lt_two_pow
  · apply crcOfByte_lt
    have h8 : (crc ^^^ b) &&& BYTE_MASK < 2 ^ 8 := Nat.and_lt_two_pow _ (by decide)
    exact Nat.lt_trans h8 (by decide)
  · rw [Nat.shiftRight_eq_div_pow]
    exact Nat.lt_of_le_of_lt (Nat.div_le_self _ _) h

theorem zeroRun_zero (crc : Nat) : zeroRun 0 crc = crc := rfl

theorem zeroRun_succ (n crc : Nat) : zeroRun (n + 1) crc = zeroRun n (byteStep crc 0) := rfl

theorem zeroRun_succ_last (n crc : Nat) : zeroRun (n + 1) crc = byteStep (zeroRun n crc) 0 := by
  unfold zeroRun
  rw [Function.iterate_succ_apply']

theorem zeroRun_add (m n crc : Nat) : zeroRun (m + n) crc = zeroRun n (zeroRun m crc) := by
  unfold zeroRun
  rw [Nat.add_comm, Function.iterate_add_apply]

theorem zeroRun_xor (n : Nat) : ∀ a b : Nat, zeroRun n (a ^^^ b) = zeroRun n a ^^^ zeroRun n b := by
  induction n with
  | zero => intro a b; rfl
  | succ n ih => intro a b; rw [zeroRun_succ, zeroRun_succ, zeroRun_succ, byteStep_xor, ih]

theorem zeroRun_of_zero (n : Nat) : zeroRun n 0 = 0 := by
  induction n with
  | zero => rfl
  | succ n ih => rw [zeroRun_succ, byteStep_zero, ih]

theorem zeroRun_lt (n : Nat) : ∀ crc : Nat, crc < 2 ^ 32 → zeroRun n crc < 2 ^ 32 := by
  induction n with
  | zero => intro crc h; exact h
  | succ n ih => intro crc h; rw [zeroRun_succ]; exact ih _ (byteStep_lt _ _ h)

theorem calcCrcBuf_append (T : Tables) (A B : List Nat) :
    ∀ crc : Nat, calcCrcBuf T crc (A ++ B) = calcCrcBuf T (calcCrcBuf T crc A) B := by
  induction A with
  | nil => intro crc; rfl
  | cons a A ih => intro crc; exact ih _

theorem calcCrcBuf_zeros (T : Tables) (h : DataTableBuilt T.crcDataTable) (n : Nat) :
    ∀ crc : Nat, calcCrcBuf T crc (List.replicate n 0) = zeroRun n crc := by
  induction n with
  | zero => intro crc; rfl
  | succ n ih =>
    intro crc
    rw [List.replicate_succ, zeroRun_succ, ← CALC_CRC_BYTE_eq _ h]
    exact ih _

theorem calcCrcBuf_xor (T : Tables) (h : DataTableBuilt T.crcDataTable) (P : List Nat) :
    ∀ c1 c2 : Nat, calcCrcBuf T c1 P ^^^ calcCrcBuf T c2 P = zeroRun P.length (c1 ^^^ c2) := by
  induction P with
  | nil => intro c1 c2; rfl
  | cons b P ih =>
    intro c1 c2
    rw [List.length_cons, zeroRun_succ, ← byteStep_xor_same c1 c2 b, ← ih,
      ← CALC_CRC_BYTE_eq _ h, ← CALC_CRC_BYTE_eq _ h]
    rfl

theorem calcCrcBuf_lt (T : Tables) (h : DataTableBuilt T.crcDataTable) (P : List Nat) :
    ∀ crc : Nat, crc < 2 ^ 32 → calcCrcBuf T crc P < 2 ^ 32 := by
  induction P with
  | nil => intro crc hc; exact hc
  | cons b P ih =>
    intro crc hc
    apply ih
    rw [CALC_CRC_BYTE_eq _ h]
    exact byteStep_lt _ _ hc

/-! ## What `setup` stores -/

theorem shl32_one (z : Nat) (h : z < 32) : shl32 1 z = 2 ^ z := by
  unfold shl32
  rw [Nat.shiftLeft_eq, Nat.one_mul]
  exact Nat.mod_eq_of_lt (Nat.pow_lt_pow_right (by decide) h)

theorem setupDataTable_built (T : Tables) : DataTableBuilt (setupDataTable T).crcDataTable := by
  have key := forLoop_inv NUM_BYTE_VALUES (fun i hi tbl => CArray.set tbl i hi (crcOfByte i))
    (fun k (tbl : CrcByteTable) =>
      ∀ j (hj : j < NUM_BYTE_VALUES), j < k → tbl.get j hj = crcOfByte j)
    T.crcDataTable
    (by intro j _ h; exact absurd h (Nat.not_lt_zero j))
    (by
      intro i hi t ih j hj hlt
      rw [CArray.get_set]
      by_cases e : j = i
      · simp [e]
      · simp only [e, if_false]
        exact ih j hj (by omega))
  intro i hi
  exact key i hi hi

/-- The `while` loop of `setup` ends: with at least `maxZeros - numZeros` iterations
allowed it stops with `numZeros = maxZeros`, after exactly `maxZeros - numZeros`
zero-byte updates. -/
theorem zeroFill_enough (dt : CrcByteTable) (maxZeros : Nat) :
    ∀ fuel crc numZeros, numZeros ≤ maxZeros → maxZeros - numZeros ≤ fuel →
      zeroFill dt maxZeros fuel (crc, numZeros)
        = ((fun c => CALC_CRC_BYTE dt c 0x00)^[maxZeros - numZeros] crc, maxZeros) := by
  intro fuel
  induction fuel with
  | zero =>
    intro crc numZeros h1 h2
    have e : numZeros = maxZeros := by omega
    subst e
    simp [zeroFill]
  | succ fuel ih =>
    intro crc numZeros h1 h2
    unfold zeroFill
    by_cases hlt : numZeros < maxZeros
    · simp only [hlt, if_true]
      rw [ih _ _ (by omega) (by omega)]
      have e : maxZeros - numZeros = (maxZeros - (numZeros + 1)) + 1 := by omega
      rw [e, Function.iterate_succ_apply]
    · simp only [hlt, if_false]
      have e : numZeros = maxZeros := by omega
      subst e
      simp

theorem zeroFill_built (dt : CrcByteTable) (h : DataTableBuilt dt) (maxZeros : Nat)
    (fuel crc numZeros : Nat) (h1 : numZeros ≤ maxZeros) (h2 : maxZeros - numZeros ≤ fuel) :
    zeroFill dt maxZeros fuel (crc, numZeros)
      = (zeroRun (maxZeros - numZeros) crc, maxZeros) := by
  rw [zeroFill_enough dt maxZeros fuel crc numZeros h1 h2]
  have e : (fun c => CALC_CRC_BYTE dt c 0x00) = (fun c => byteStep c 0) :=
    funext (fun c => CALC_CRC_BYTE_eq dt h c 0)
  rw [e]
  rfl

theorem setZbit_get (zt : CArray CrcBitTable COUNT_BIT_WIDTH) (z : Nat)
    (hz : z < COUNT_BIT_WIDTH) (c : Nat) (hc : c < CRC_BIT_WIDTH) (v : Nat)
    (z1 : Nat) (hz1 : z1 < COUNT_BIT_WIDTH) (c1 : Nat) (hc1 : c1 < CRC_BIT_WIDTH) :
    ((setZbit zt z hz c hc v).get z1 hz1).get c1 hc1
      = if z1 = z ∧ c1 = c then v else (zt.get z1 hz1).get c1 hc1 := by
  unfold setZbit
  rw [CArray.get_set]
  by_cases e1 : z1 = z
  · subst e1
    simp only [if_true, true_and]
    rw [CArray.get_set]
  · simp [e1]

theorem two_pow_succ_half (k : Nat) : 2 ^ (k + 1) / 2 = 2 ^ k := by
  rw [Nat.pow_succ]; exact Nat.mul_div_cancel _ (by decide)

theorem two_pow_half_le (k : Nat) : 2 ^ k / 2 ≤ 2 ^ k := Nat.div_le_self _ _

theorem setupZbitTables_built (T : Tables) (h : DataTableBuilt T.crcDataTable) :
    ZbitTablesBuilt (setupZbitTables T).crcZbitTables := by
  have inner : ∀ (c : Nat) (hc : c < CRC_BIT_WIDTH) (zt : CArray CrcBitTable COUNT_BIT_WIDTH),
      let r := forLoop COUNT_BIT_WIDTH
        (fun z hz (st : (Nat × Nat) × CArray CrcBitTable COUNT_BIT_WIDTH) =>
          let maxZeros := shl32 1 z
          let st1 := zeroFill T.crcDataTable maxZeros maxZeros st.1
          (st1, setZbit st.2 z hz c hc st1.1))
        ((shl32 1 c, 0), zt)
      (∀ z (hz : z < COUNT_BIT_WIDTH), (r.2.get z hz).get c hc = zeroRun (2 ^ z) (2 ^ c)) ∧
      (∀ z (hz : z < COUNT_BIT_WIDTH) c1 (hc1 : c1 < CRC_BIT_WIDTH), c1 ≠ c →
        (r.2.get z hz).get c1 hc1 = (zt.get z hz).get c1 hc1) := by
    intro c hc zt
    have key := forLoop_inv COUNT_BIT_WIDTH
      (fun z hz (st : (Nat × Nat) × CArray CrcBitTable COUNT_BIT_WIDTH) =>
          let maxZeros := shl32 1 z
          let st1 := zeroFill T.crcDataTable maxZeros maxZeros st.1
          (st1, setZbit st.2 z hz c hc st1.1))
      (fun k st =>
        st.1 = (zeroRun (2 ^ k / 2) (2 ^ c), 2 ^ k / 2) ∧
        (∀ z (hz : z < COUNT_BIT_WIDTH), z < k →
          (st.2.get z hz).get c hc = zeroRun (2 ^ z) (2 ^ c)) ∧
        (∀ z (hz : z < COUNT_BIT_WIDTH) c1 (hc1 : c1 < CRC_BIT_WIDTH), c1 ≠ c →
          (st.2.get z hz).get c1 hc1 = (zt.get z hz).get c1 hc1))
      ((shl32 1 c, 0), zt)
      (by
        refine ⟨?_, ?_, ?_⟩
        · rw [shl32_one c hc]; rfl
        · intro z _ hlt; exact absurd hlt (Nat.not_lt_zero z)
        · intro z hz c1 hc1 _; rfl)
      (by
        intro k hk st ih
        obtain ⟨ih1, ih2, ih3⟩ := ih
        have hk32 : k < 32 := Nat.lt_trans hk (by decide)
        have hfill : zeroFill T.crcDataTable (shl32 1 k) (shl32 1 k) st.1
            = (zeroRun (2 ^ k) (2 ^ c), 2 ^ k) := by
          rw [shl32_one k hk32, ih1,
            zeroFill_built _ h _ _ _ _ (two_pow_half_le k) (Nat.sub_le _ _), ← zeroRun_add,
            Nat.add_sub_cancel' (two_pow_half_le k)]
        refine ⟨?_, ?_, ?_⟩
        · show zeroFill T.crcDataTable (shl32 1 k) (shl32 1 k) st.1 = _
          rw [hfill, two_pow_succ_half]
        · intro z hz hlt
          show ((setZbit st.2 k hk c hc
            (zeroFill T.crcDataTable (shl32 1 k) (shl32 1 k) st.1).1).get z hz).get c hc = _
          rw [setZbit_get, hfill]
          by_cases e : z = k
          · simp [e]
          · simp only [e, false_and, if_false]
            exact ih2 z hz (by omega)
        · intro z hz c1 hc1 hne
          show ((setZbit st.2 k hk c hc
            (zeroFill T.crcDataTable (shl32 1 k) (shl32 1 k) st.1).1).get z hz).get c1 hc1 = _
          rw [setZbit_get]
          simp only [hne, and_false, if_false]
          exact ih3 z hz c1 hc1 hne)
    exact ⟨fun z hz => key.2.1 z hz hz, key.2.2⟩
  have outer := forLoop_inv CRC_BIT_WIDTH
    (fun c hc zt =>
          (forLoop COUNT_BIT_WIDTH
            (fun z hz (st : (Nat × Nat) × CArray CrcBitTable COUNT_BIT_WIDTH) =>
              let maxZeros := shl32 1 z
              let st1 := zeroFill T.crcDataTable maxZeros maxZeros st.1
              (st1, setZbit st.2 z hz c hc st1.1))
            ((shl32 1 c, 0), zt)).2)
    (fun k (zt : CArray CrcBitTable COUNT_BIT_WIDTH) =>
      ∀ z (hz : z < COUNT_BIT_WIDTH) c (hc : c < CRC_BIT_WIDTH), c < k →
        (zt.get z hz).get c hc = zeroRun (2 ^ z) (2 ^ c))
    T.crcZbitTables
    (by intro z _ c _ hlt; exact absurd hlt (Nat.not_lt_zero c))
    (by
      intro k hk zt ih z hz c hc hlt
      obtain ⟨i1, i2⟩ := inner k hk zt
      by_cases e : c = k
      · subst e; exact i1 z hz
      · rw [i2 z hz c hc e]
        exact ih z hz c hc (by omega))
  intro z hz c hc
  exact outer z hz c hc hc

/-! ## The inner loop of `calcCrcZeros` -/

theorem and_two_pow_eq (x c : Nat) : x &&& 2 ^ c = if x.testBit c then 2 ^ c else 0 := by
  apply Nat.eq_of_testBit_eq
  intro i
  rw [Nat.testBit_and, Nat.testBit_two_pow]
  by_cases h : c = i
  · subst h
    cases hx : x.testBit c <;> simp [Nat.testBit_two_pow_self]
  · cases hx : x.testBit c <;> simp [h, Nat.testBit_two_pow_of_ne h]

theorem and_two_pow_ne_zero (x c : Nat) : x &&& 2 ^ c ≠ 0 ↔ x.testBit c = true := by
  rw [and_two_pow_eq]
  cases hx : x.testBit c
  · simp
  · simp

theorem shl32_two_pow (k : Nat) : shl32 (2 ^ k % 2 ^ 32) 1 = 2 ^ (k + 1) % 2 ^ 32 := by
  unfold shl32
  rw [Nat.shiftLeft_eq, Nat.pow_one, show 2 ^ (k + 1) = 2 ^ k * 2 from Nat.pow_succ 2 k]
  omega

theorem shl32_two_pow_lt (k : Nat) (h : k + 1 < 32) : shl32 (2 ^ k) 1 = 2 ^ (k + 1) := by
  unfold shl32
  rw [Nat.shiftLeft_eq, ← Nat.pow_succ]
  exact Nat.mod_eq_of_lt (Nat.pow_lt_pow_right (by decide) h)

theorem applyBitTable_aux (tbl : CrcBitTable) (crc : Nat) :
    ∀ k (hk : k ≤ CRC_BIT_WIDTH),
      forLoopAux CRC_BIT_WIDTH
        (fun c hc (st : Nat × Nat) =>
          ((if crc &&& st.2 ≠ 0 then st.1 ^^^ tbl.get c hc else st.1), shl32 st.2 1))
        k hk (0, 1) = (xorCols tbl crc k hk, 2 ^ k % 2 ^ 32) := by
  intro k
  induction k with
  | zero => intro hk; rfl
  | succ k ih =>
    intro hk
    have hlt : k < 32 := hk
    have hm : 2 ^ k % 2 ^ 32 = 2 ^ k := Nat.mod_eq_of_lt (Nat.pow_lt_pow_right (by decide) hlt)
    simp only [forLoopAux, xorCols]
    rw [ih (Nat.le_of_succ_le hk)]
    simp only [shl32_two_pow]
    rw [hm]
    by_cases hb : crc.testBit k = true
    · have h1 : crc &&& 2 ^ k ≠ 0 := (and_two_pow_ne_zero crc k).2 hb
      simp [hb, h1]
    · have h1 : ¬ (crc &&& 2 ^ k ≠ 0) := fun h => hb ((and_two_pow_ne_zero crc k).1 h)
      simp only [h1, if_false, hb]
      simp

theorem applyBitTable_eq (tbl : CrcBitTable) (crc : Nat) :
    applyBitTable tbl crc = xorCols tbl crc CRC_BIT_WIDTH (Nat.le_refl _) := by
  unfold applyBitTable forLoop
  rw [applyBitTable_aux]

theorem xorCols_xor (tbl : CrcBitTable) (a b : Nat) :
    ∀ k (hk : k ≤ CRC_BIT_WIDTH),
      xorCols tbl (a ^^^ b) k hk = xorCols tbl a k hk ^^^ xorCols tbl b k hk := by
  intro k
  induction k with
  | zero => intro hk; simp [xorCols]
  | succ k ih =>
    intro hk
    simp only [xorCols, Nat.testBit_xor, ih (Nat.le_of_succ_le hk)]
    cases a.testBit k <;> cases b.testBit k
    · simp
    · simp [Nat.xor_assoc]
    · simp; ac_rfl
    · simp; exact (xor_xor_xor_cancel _ _ _).symm

theorem xorCols_of_zero (tbl : CrcBitTable) :
    ∀ k (hk : k ≤ CRC_BIT_WIDTH), xorCols tbl 0 k hk = 0 := by
  intro k
  induction k with
  | zero => intro hk; simp [xorCols]
  | succ k ih => intro hk; simp [xorCols, ih (Nat.le_of_succ_le hk)]

theorem applyBitTable_xor (tbl : CrcBitTable) (a b : Nat) :
    applyBitTable tbl (a ^^^ b) = applyBitTable tbl a ^^^ applyBitTable tbl b := by
  simp only [applyBitTable_eq, xorCols_xor]

theorem applyBitTable_of_zero (tbl : CrcBitTable) : applyBitTable tbl 0 = 0 := by
  rw [applyBitTable_eq, xorCols_of_zero]

theorem mod_two_pow_succ_xor (x k : Nat) :
    x % 2 ^ (k + 1) = (x % 2 ^ k) ^^^ (if x.testBit k then 2 ^ k else 0) := by
  apply Nat.eq_of_testBit_eq
  intro i
  rw [Nat.testBit_xor, Nat.testBit_mod_two_pow, Nat.testBit_mod_two_pow]
  by_cases h : k = i
  · subst h
    cases hx : x.testBit k <;> simp [hx, Nat.testBit_two_pow_self]
  · cases hx : x.testBit k
    · have e : decide (i < k + 1) = decide (i < k) := by
        apply decide_eq_decide.2; omega
      simp [e]
    · have e : decide (i < k + 1) = decide (i < k) := by
        apply decide_eq_decide.2; omega
      simp [e, Nat.testBit_two_pow_of_ne h]

theorem xorCols_built (tbl : CrcBitTable) (n : Nat)
    (h : ∀ c (hc : c < CRC_BIT_WIDTH), tbl.get c hc = zeroRun n (2 ^ c)) (crc : Nat) :
    ∀ k (hk : k ≤ CRC_BIT_WIDTH), xorCols tbl crc k hk = zeroRun n (crc % 2 ^ k) := by
  intro k
  induction k with
  | zero => intro hk; simp [xorCols, Nat.mod_one, zeroRun_of_zero]
  | succ k ih =>
    intro hk
    simp only [xorCols]
    rw [ih (Nat.le_of_succ_le hk), mod_two_pow_succ_xor, zeroRun_xor, h]
    cases crc.testBit k
    · simp [zeroRun_of_zero]
    · simp

theorem applyBitTable_built (tbl : CrcBitTable) (n : Nat)
    (h : ∀ c (hc : c < CRC_BIT_WIDTH), tbl.get c hc = zeroRun n (2 ^ c)) (crc : Nat)
    (hcrc : crc < 2 ^ 32) : applyBitTable tbl crc = zeroRun n crc := by
  rw [applyBitTable_eq, xorCols_built tbl n h, Nat.mod_eq_of_lt hcrc]

/-! ## The loop of `calcCrcZeros` over the bits of the count -/

/-- The loop of `calcCrcZeros` ends by its guard `z < COUNT_BIT_WIDTH`: once
`COUNT_BIT_WIDTH - z` iterations are allowed, allowing more changes nothing. -/
theorem calcCrcZerosLoop_fuel (T : Tables) (numZeros : Nat) :
    ∀ fuel z zerosMask crc, COUNT_BIT_WIDTH - z ≤ fuel →
      calcCrcZerosLoop T numZeros (fuel + 1) z zerosMask crc
        = calcCrcZerosLoop T numZeros fuel z zerosMask crc := by
  intro fuel
  induction fuel with
  | zero =>
    intro z zerosMask crc h
    have hz : ¬ z < COUNT_BIT_WIDTH := by omega
    simp [calcCrcZerosLoop, hz]
  | succ fuel ih =>
    intro z zerosMask crc h
    rw [calcCrcZerosLoop]
    conv => rhs; rw [calcCrcZerosLoop]
    by_cases hc : z < COUNT_BIT_WIDTH ∧ numZeros ≥ zerosMask
    · simp only [hc, and_self, dite_true]
      exact ih _ _ _ (by omega)
    · simp only [hc, dite_false]

theorem bitsLoop_no_bits (zt : CArray CrcBitTable COUNT_BIT_WIDTH) (numZeros : Nat) :
    ∀ fuel z crc, (∀ i, z ≤ i → numZeros.testBit i = false) →
      bitsLoop zt numZeros fuel z crc = crc := by
  intro fuel
  induction fuel with
  | zero => intro z crc _; rfl
  | succ fuel ih =>
    intro z crc h
    rw [bitsLoop]
    by_cases hz : z < COUNT_BIT_WIDTH
    · simp only [hz, dite_true, h z (Nat.le_refl z)]
      exact ih _ _ (fun i hi => h i (by omega))
    · simp only [hz, dite_false]

theorem bitsLoop_congr (zt : CArray CrcBitTable COUNT_BIT_WIDTH) (n1 n2 : Nat) :
    ∀ fuel z crc, (∀ i, z ≤ i → i < COUNT_BIT_WIDTH → n1.testBit i = n2.testBit i) →
      bitsLoop zt n1 fuel z crc = bitsLoop zt n2 fuel z crc := by
  intro fuel
  induction fuel with
  | zero => intro z crc _; rfl
  | succ fuel ih =>
    intro z crc h
    rw [bitsLoop]
    conv => rhs; rw [bitsLoop]
    by_cases hz : z < COUNT_BIT_WIDTH
    · simp only [hz, dite_true, h z (Nat.le_refl z) hz]
      exact ih _ _ (fun i hi hi2 => h i (by omega) hi2)
    · simp only [hz, dite_false]

theorem bitsLoop_xor (zt : CArray CrcBitTable COUNT_BIT_WIDTH) (numZeros : Nat) :
    ∀ fuel z a b, bitsLoop zt numZeros fuel z (a ^^^ b)
      = bitsLoop zt numZeros fuel z a ^^^ bitsLoop zt numZeros fuel z b := by
  intro fuel
  induction fuel with
  | zero => intro z a b; rfl
  | succ fuel ih =>
    intro z a b
    simp only [bitsLoop]
    by_cases hz : z < COUNT_BIT_WIDTH
    · simp only [hz, dite_true]
      cases numZeros.testBit z
      · simp only [Bool.false_eq_true, if_false]; exact ih _ _ _
      · simp only [if_true, applyBitTable_xor]; exact ih _ _ _
    · simp only [hz, dite_false]

theorem bitsLoop_of_zero (zt : CArray CrcBitTable COUNT_BIT_WIDTH) (numZeros : Nat) :
    ∀ fuel z, bitsLoop zt numZeros fuel z 0 = 0 := by
  intro fuel
  induction fuel with
  | zero => intro z; rfl
  | succ fuel ih =>
    intro z
    simp only [bitsLoop]
    by_cases hz : z < COUNT_BIT_WIDTH
    · simp only [hz, dite_true, applyBitTable_of_zero, ite_self]
      exact ih _
    · simp only [hz, dite_false]

theorem calcCrcZerosLoop_eq (T : Tables) (numZeros : Nat) :
    ∀ fuel z crc, calcCrcZerosLoop T numZeros fuel z (2 ^ z) crc
      = bitsLoop T.crcZbitTables numZeros fuel z crc := by
  intro fuel
  induction fuel with
  | zero => intro z crc; rfl
  | succ fuel ih =>
    intro z crc
    rw [calcCrcZerosLoop, bitsLoop]
    by_cases hz : z < COUNT_BIT_WIDTH
    · by_cases hge : numZeros ≥ 2 ^ z
      · have hc : z < COUNT_BIT_WIDTH ∧ numZeros ≥ 2 ^ z := ⟨hz, hge⟩
        have hm : shl32 (2 ^ z) 1 = 2 ^ (z + 1) :=
          shl32_two_pow_lt z (by have : z < 16 := hz; omega)
        simp only [hc, and_self, dite_true, hz, hm, ih]
        cases hb : numZeros.testBit z
        · have h1 : ¬ (numZeros &&& 2 ^ z ≠ 0) := fun h => by
            rw [(and_two_pow_ne_zero _ _).1 h] at hb
            exact Bool.noConfusion hb
          simp only [h1, if_false, Bool.false_eq_true]
        · have h1 : numZeros &&& 2 ^ z ≠ 0 := (and_two_pow_ne_zero _ _).2 hb
          simp only [h1, if_true, ne_eq, not_false_eq_true]
      · have hc : ¬ (z < COUNT_BIT_WIDTH ∧ numZeros ≥ 2 ^ z) := fun h => hge h.2
        have hlt : numZeros < 2 ^ z := Nat.lt_of_not_ge hge
        have hnone : ∀ i, z ≤ i → numZeros.testBit i = false := by
          intro i hi
          exact Nat.testBit_lt_two_pow
            (Nat.lt_of_lt_of_le hlt (Nat.pow_le_pow_right (by decide) hi))
        rw [dif_neg hc, dif_pos hz]
        simp only [hnone z (Nat.le_refl z), Bool.false_eq_true, if_false]
        exact (bitsLoop_no_bits T.crcZbitTables numZeros fuel (z + 1) crc
          (fun i hi => hnone i (Nat.le_of_succ_le hi))).symm
    · have hc : ¬ (z < COUNT_BIT_WIDTH ∧ numZeros ≥ 2 ^ z) := fun h => hz h.1
      rw [dif_neg hc, dif_neg hz]

theorem calcCrcZeros_eq_bitsLoop (T : Tables) (crcIn numZeros : Nat) :
    calcCrcZeros T crcIn numZeros
      = bitsLoop T.crcZbitTables numZeros COUNT_BIT_WIDTH 0 crcIn := by
  unfold calcCrcZeros
  by_cases h : crcIn = 0
  · subst h
    simp only [if_true]
    exact (bitsLoop_of_zero _ _ _ _).symm
  · simp only [h, if_false]
    exact calcCrcZerosLoop_eq T numZeros COUNT_BIT_WIDTH 0 crcIn

theorem mod_two_pow_succ_add (x k : Nat) :
    x % 2 ^ (k + 1) = x % 2 ^ k + (if x.testBit k then 2 ^ k else 0) := by
  rw [Nat.testBit_to_div_mod]
  have h1 : x % 2 ^ (k + 1) = x % 2 ^ k + 2 ^ k * (x / 2 ^ k % 2) := by
    rw [Nat.pow_succ, Nat.mod_mul]
  rw [h1]
  rcases Nat.mod_two_eq_zero_or_one (x / 2 ^ k) with h | h <;> simp [h]

theorem bitsLoop_built (zt : CArray CrcBitTable COUNT_BIT_WIDTH) (h : ZbitTablesBuilt zt)
    (numZeros : Nat) :
    ∀ fuel z crc, z ≤ COUNT_BIT_WIDTH → COUNT_BIT_WIDTH - z ≤ fuel → crc < 2 ^ 32 →
      bitsLoop zt numZeros fuel z crc
        = zeroRun (numZeros % 2 ^ COUNT_BIT_WIDTH - numZeros % 2 ^ z) crc := by
  intro fuel
  induction fuel with
  | zero =>
    intro z crc hz hf _
    have e : z = COUNT_BIT_WIDTH := by omega
    subst e
    simp [bitsLoop, zeroRun_zero]
  | succ fuel ih =>
    intro z crc hz hf hcrc
    rw [bitsLoop]
    by_cases hlt : z < COUNT_BIT_WIDTH
    · simp only [hlt, dite_true]
      have hmono : numZeros % 2 ^ (z + 1) ≤ numZeros % 2 ^ COUNT_BIT_WIDTH := by
        have hd : (2 : Nat) ^ (z + 1) ∣ 2 ^ COUNT_BIT_WIDTH :=
          Nat.pow_dvd_pow 2 (by omega)
        rw [← Nat.mod_mod_of_dvd numZeros hd]
        exact Nat.mod_le _ _
      have hsplit := mod_two_pow_succ_add numZeros z
      have hf1 : COUNT_BIT_WIDTH - (z + 1) ≤ fuel := by
        have h16 : COUNT_BIT_WIDTH = 16 := rfl
        omega
      cases hb : numZeros.testBit z
      · simp only [hb, if_false, Bool.false_eq_true, Nat.add_zero] at hsplit ⊢
        rw [ih (z + 1) crc hlt hf1 hcrc, hsplit]
      · simp only [hb, if_true] at hsplit ⊢
        have harith : 2 ^ z + (numZeros % 2 ^ COUNT_BIT_WIDTH - numZeros % 2 ^ (z + 1))
            = numZeros % 2 ^ COUNT_BIT_WIDTH - numZeros % 2 ^ z := by
          omega
        rw [applyBitTable_built _ _ (h z hlt) _ hcrc,
          ih (z + 1) _ hlt hf1 (zeroRun_lt _ _ hcrc), ← zeroRun_add, harith]
    · have e : z = COUNT_BIT_WIDTH := by omega
      subst e
      simp [zeroRun_zero]

theorem calcCrcZeros_built (T : Tables) (h : ZbitTablesBuilt T.crcZbitTables)
    (crcIn numZeros : Nat) (hcrc : crcIn < 2 ^ 32) :
    calcCrcZeros T crcIn numZeros = zeroRun (numZeros % 2 ^ COUNT_BIT_WIDTH) crcIn := by
  rw [calcCrcZeros_eq_bitsLoop,
    bitsLoop_built _ h numZeros COUNT_BIT_WIDTH 0 crcIn (Nat.zero_le _) (by decide) hcrc]
  simp [Nat.mod_one]

/-! ## The full map -/

theorem setMap_get (map : CrcFullMap) (b : Nat) (hb : b < CRC_BYTE_WIDTH) (i : Nat)
    (hi : i < NUM_BYTE_VALUES) (v : Nat) (b1 : Nat) (hb1 : b1 < CRC_BYTE_WIDTH) (i1 : Nat)
    (hi1 : i1 < NUM_BYTE_VALUES) :
    ((setMap map b hb i hi v).get b1 hb1).get i1 hi1
      = if b1 = b ∧ i1 = i then v else (map.get b1 hb1).get i1 hi1 := by
  unfold setMap
  rw [CArray.get_set]
  by_cases e1 : b1 = b
  · subst e1
    simp only [if_true, true_and]
    rw [CArray.get_set]
  · simp [e1]

theorem setupFullZeroMap_get (T : Tables) (map : CrcFullMap) (numZeros : Nat)
    (b : Nat) (hb : b < CRC_BYTE_WIDTH) (i : Nat) (hi : i < NUM_BYTE_VALUES) :
    ((setupFullZeroMap T map numZeros).get b hb).get i hi
      = calcCrcZeros T (shl32 i (b * NUM_BITS_PER_BYTE)) numZeros := by
  have inner : ∀ (i : Nat) (hi : i < NUM_BYTE_VALUES) (m : CrcFullMap),
      let r := forLoop CRC_BYTE_WIDTH
        (fun b hb map =>
          setMap map b hb i hi (calcCrcZeros T (shl32 i (b * NUM_BITS_PER_BYTE)) numZeros))
        m
      (∀ b (hb : b < CRC_BYTE_WIDTH), (r.get b hb).get i hi
        = calcCrcZeros T (shl32 i (b * NUM_BITS_PER_BYTE)) numZeros) ∧
      (∀ b (hb : b < CRC_BYTE_WIDTH) i1 (hi1 : i1 < NUM_BYTE_VALUES), i1 ≠ i →
        (r.get b hb).get i1 hi1 = (m.get b hb).get i1 hi1) := by
    intro i hi m
    have key := forLoop_inv CRC_BYTE_WIDTH
      (fun b hb map =>
        setMap map b hb i hi (calcCrcZeros T (shl32 i (b * NUM_BITS_PER_BYTE)) numZeros))
      (fun k (r : CrcFullMap) =>
        (∀ b (hb : b < CRC_BYTE_WIDTH), b < k → (r.get b hb).get i hi
          = calcCrcZeros T (shl32 i (b * NUM_BITS_PER_BYTE)) numZeros) ∧
        (∀ b (hb : b < CRC_BYTE_WIDTH) i1 (hi1 : i1 < NUM_BYTE_VALUES), i1 ≠ i →
          (r.get b hb).get i1 hi1 = (m.get b hb).get i1 hi1))
      m
      ⟨fun b _ hlt => absurd hlt (Nat.not_lt_zero b), fun _ _ _ _ _ => rfl⟩
      (by
        intro k hk r ih
        obtain ⟨ih1, ih2⟩ := ih
        refine ⟨?_, ?_⟩
        · intro b hb hlt
          rw [setMap_get]
          by_cases e : b = k
          · simp [e]
          · simp only [e, false_and, if_false]
            exact ih1 b hb (by omega)
        · intro b hb i1 hi1 hne
          rw [setMap_get]
          simp only [hne, and_false, if_false]
          exact ih2 b hb i1 hi1 hne)
    exact ⟨fun b hb => key.1 b hb hb, key.2⟩
  have outer := forLoop_inv NUM_BYTE_VALUES
    (fun i hi map =>
      forLoop CRC_BYTE_WIDTH
        (fun b hb map =>
          setMap map b hb i hi (calcCrcZeros T (shl32 i (b * NUM_BITS_PER_BYTE)) numZeros))
        map)
    (fun k (r : CrcFullMap) =>
      ∀ b (hb : b < CRC_BYTE_WIDTH) i (hi : i < NUM_BYTE_VALUES), i < k →
        (r.get b hb).get i hi = calcCrcZeros T (shl32 i (b * NUM_BITS_PER_BYTE)) numZeros)
    map
    (fun _ _ i _ hlt => absurd hlt (Nat.not_lt_zero i))
    (by
      intro k hk r ih b hb i hi hlt
      obtain ⟨i1, i2⟩ := inner k hk r
      by_cases e : i = k
      · subst e; exact i1 b hb
      · rw [i2 b hb i hi e]
        exact ih b hb i hi (by omega))
  exact outer b hb i hi hi

theorem byte_split (x k : Nat) :
    x % 2 ^ (8 * (k + 1)) = (x % 2 ^ (8 * k)) ^^^ (((x >>> (8 * k)) % 2 ^ 8) <<< (8 * k)) := by
  apply Nat.eq_of_testBit_eq
  intro i
  simp only [Nat.testBit_xor, Nat.testBit_mod_two_pow, Nat.testBit_shiftLeft,
    Nat.testBit_shiftRight]
  by_cases h1 : i < 8 * k
  · have h2 : i < 8 * (k + 1) := by omega
    have h3 : ¬ i ≥ 8 * k := by omega
    simp [h1, h2, h3]
  · by_cases h2 : i < 8 * (k + 1)
    · have h3 : i ≥ 8 * k := by omega
      have h4 : i - 8 * k < 8 := by omega
      have h5 : 8 * k + (i - 8 * k) = i := by omega
      simp [h1, h2, h3, h4, h5]
    · have h3 : i ≥ 8 * k := by omega
      have h4 : ¬ i - 8 * k < 8 := by omega
      simp [h1, h2, h3, h4]

theorem shl32_byte (y k : Nat) (hy : y < 2 ^ 8) (hk : k < 4) :
    shl32 y (k * NUM_BITS_PER_BYTE) = y <<< (8 * k) := by
  unfold shl32
  rw [Nat.mul_comm k]
  apply Nat.mod_eq_of_lt
  rw [Nat.shiftLeft_eq]
  have h1 : (2 : Nat) ^ (8 * k) ≤ 2 ^ 24 := Nat.pow_le_pow_right (by decide) (by omega)
  calc y * 2 ^ (8 * k) < 2 ^ 8 * 2 ^ (8 * k) :=
        Nat.mul_lt_mul_of_pos_right hy (Nat.two_pow_pos _)
    _ ≤ 2 ^ 8 * 2 ^ 24 := Nat.mul_le_mul_left _ h1
    _ = 2 ^ 32 := by decide

theorem calcCrcFullMap_linear (F : Nat → Nat) (hxor : ∀ a b, F (a ^^^ b) = F a ^^^ F b)
    (hzero : F 0 = 0) (map : CrcFullMap)
    (hmap : ∀ b (hb : b < CRC_BYTE_WIDTH) i (hi : i < NUM_BYTE_VALUES),
      (map.get b hb).get i hi = F (shl32 i (b * NUM_BITS_PER_BYTE)))
    (crcIn : Nat) : calcCrcFullMap crcIn map = F (crcIn % 2 ^ 32) := by
  have key := forLoop_inv CRC_BYTE_WIDTH
    (fun b hb (st : Nat × Nat) =>
      (st.1 ^^^ (map.get b hb).get (st.2 % NUM_BYTE_VALUES) (Nat.mod_lt _ (by decide)),
        st.2 >>> NUM_BITS_PER_BYTE))
    (fun k st => st = (F (crcIn % 2 ^ (8 * k)), crcIn >>> (8 * k)))
    (0, crcIn)
    (by simp [Nat.mod_one, hzero])
    (by
      intro k hk st ih
      subst ih
      have hk4 : k < 4 := hk
      have hy : (crcIn >>> (8 * k)) % NUM_BYTE_VALUES < 2 ^ 8 := Nat.mod_lt _ (by decide)
      simp only [hmap]
      rw [shl32_byte _ _ hy hk4, ← hxor, byte_split crcIn k, ← Nat.shiftRight_add]
      rfl)
  unfold calcCrcFullMap
  rw [key]
  rfl

/-! ## The tables after `setup` -/

theorem setup_dataTable_built (T : Tables) : DataTableBuilt (setup T).crcDataTable :=
  setupDataTable_built T

theorem setup_zbitTables_built (T : Tables) : ZbitTablesBuilt (setup T).crcZbitTables :=
  setupZbitTables_built (setupDataTable T) (setupDataTable_built T)

theorem setup_zRun1492_get (T : Tables) (b : Nat) (hb : b < CRC_BYTE_WIDTH) (i : Nat)
    (hi : i < NUM_BYTE_VALUES) :
    (((setup T).zRun1492).get b hb).get i hi
      = calcCrcZeros (setup T) (shl32 i (b * NUM_BITS_PER_BYTE)) 1492 := by
  show ((setupFullZeroMap (setupZbitTables (setupDataTable T))
    (setupZbitTables (setupDataTable T)).zRun1492 1492).get b hb).get i hi = _
  rw [setupFullZeroMap_get, calcCrcZeros_eq_bitsLoop, calcCrcZeros_eq_bitsLoop]
  rfl

theorem calcCrcZeros_xor (T : Tables) (a b numZeros : Nat) :
    calcCrcZeros T (a ^^^ b) numZeros
      = calcCrcZeros T a numZeros ^^^ calcCrcZeros T b numZeros := by
  simp only [calcCrcZeros_eq_bitsLoop, bitsLoop_xor]

theorem calcCrcZeros_of_zero (T : Tables) (numZeros : Nat) : calcCrcZeros T 0 numZeros = 0 := by
  unfold calcCrcZeros
  simp

theorem calcCrcZeros_low_bits (T : Tables) (crcIn numZeros : Nat) :
    calcCrcZeros T crcIn numZeros = calcCrcZeros T crcIn (numZeros % 2 ^ COUNT_BIT_WIDTH) := by
  rw [calcCrcZeros_eq_bitsLoop, calcCrcZeros_eq_bitsLoop]
  apply bitsLoop_congr
  intro i _ hi
  rw [Nat.testBit_mod_two_pow]
  simp [hi]

theorem calcCrcBuf_zeros_iterate (T : Tables) (n : Nat) :
    ∀ crc : Nat, calcCrcBuf T crc (List.replicate n 0)
      = (fun c => CALC_CRC_BYTE T.crcDataTable c 0x00)^[n] crc := by
  induction n with
  | zero => intro crc; rfl
  | succ n ih =>
    intro crc
    rw [List.replicate_succ, Function.iterate_succ_apply]
    exact ih _

theorem calcCrcFullMap_built (T : Tables) (map : CrcFullMap) (numZeros : Nat)
    (hmap : ∀ b (hb : b < CRC_BYTE_WIDTH) i (hi : i < NUM_BYTE_VALUES),
      (map.get b hb).get i hi = calcCrcZeros T (shl32 i (b * NUM_BITS_PER_BYTE)) numZeros)
    (crcIn : Nat) (hcrc : crcIn < 2 ^ 32) :
    calcCrcFullMap crcIn map = calcCrcZeros T crcIn numZeros := by
  rw [calcCrcFullMap_linear (fun x => calcCrcZeros T x numZeros)
    (fun a b => calcCrcZeros_xor T a b numZeros) (calcCrcZeros_of_zero T numZeros) map hmap,
    Nat.mod_eq_of_lt hcrc]

theorem header_edit_zeroRun (T : Tables) (hd : DataTableBuilt T.crcDataTable)
    (seed : Nat) (H_old H_new P : List Nat) :
    calcCrcBuf T seed (H_new ++ P)
      = calcCrcBuf T seed (H_old ++ P)
        ^^^ zeroRun P.length (calcCrcBuf T seed H_old ^^^ calcCrcBuf T seed H_new) := by
  rw [calcCrcBuf_append, calcCrcBuf_append, ← calcCrcBuf_xor T hd P, Nat.xor_cancel_left]

theorem setup_eq (T1 T2 : Tables) : setup T1 = setup T2 := by
  have hz : (setup T1).crcZbitTables = (setup T2).crcZbitTables := by
    apply CArray.ext
    intro z hz
    apply CArray.ext
    intro c hc
    rw [setup_zbitTables_built T1 z hz c hc, setup_zbitTables_built T2 z hz c hc]
  apply Tables.eq_of_fields
  · apply CArray.ext
    intro i hi
    rw [setup_dataTable_built T1 i hi, setup_dataTable_built T2 i hi]
  · exact hz
  · apply CArray.ext
    intro b hb
    apply CArray.ext
    intro i hi
    rw [setup_zRun1492_get, setup_zRun1492_get, calcCrcZeros_eq_bitsLoop,
      calcCrcZeros_eq_bitsLoop, hz]

/-! ## The claims -/

/-- C1, header-edit equivalence: after `setup`, for every 32-bit seed, every two headers of
the same length and every payload `P` shorter than `2^16`, the CRC of the new header
followed by `P` is the CRC of the old header followed by `P`, XOR `calcCrcZeros` of the
XOR of the two header CRCs over `len(P)` zeros. -/
theorem header_edit_equivalence (T0 : Tables) (seed : Nat) (H_old H_new P : List Nat)
    (hseed : seed < 2 ^ 32) (_hlen : H_old.length = H_new.length)
    (hP : P.length < 2 ^ 16) :
    calcCrcBuf (setup T0) seed (H_new ++ P)
      = calcCrcBuf (setup T0) seed (H_old ++ P)
        ^^^ calcCrcZeros (setup T0)
          (calcCrcBuf (setup T0) seed H_old ^^^ calcCrcBuf (setup T0) seed H_new) P.length := by
  have hd := setup_dataTable_built T0
  have hx : calcCrcBuf (setup T0) seed H_old ^^^ calcCrcBuf (setup T0) seed H_new < 2 ^ 32 :=
    Nat.xor_lt_two_pow (calcCrcBuf_lt _ hd _ _ hseed) (calcCrcBuf_lt _ hd _ _ hseed)
  rw [calcCrcZeros_built _ (setup_zbitTables_built T0) _ _ hx, Nat.mod_eq_of_lt hP]
  exact header_edit_zeroRun _ hd seed H_old H_new P

theorem header_edit_equivalence_witness :
    (0x12345678 : Nat) < 2 ^ 32 ∧ [1, 2, 3, 4, 5, 6, 7, 8].length = [1, 87, 3, 4, 9, 6, 7, 8].length ∧
    [10, 20, 30].length < 2 ^ 16 ∧
    calcCrcBuf (setup Tables.start) 0x12345678 ([1, 87, 3, 4, 9, 6, 7, 8] ++ [10, 20, 30])
      = calcCrcBuf (setup Tables.start) 0x12345678 ([1, 2, 3, 4, 5, 6, 7, 8] ++ [10, 20, 30])
        ^^^ calcCrcZeros (setup Tables.start)
          (calcCrcBuf (setup Tables.start) 0x12345678 [1, 2, 3, 4, 5, 6, 7, 8]
            ^^^ calcCrcBuf (setup Tables.start) 0x12345678 [1, 87, 3, 4, 9, 6, 7, 8])
          [10, 20, 30].length :=
  ⟨by decide, by decide, by decide,
    header_edit_equivalence Tables.start 0x12345678 [1, 2, 3, 4, 5, 6, 7, 8]
      [1, 87, 3, 4, 9, 6, 7, 8] [10, 20, 30] (by decide) (by decide) (by decide)⟩

/-- C2, ground-truth equivalence: after `setup`, for every 32-bit seed and every count
`N < 2^16`, `calcCrcZeros(seed, N)` is `calcCrcBuf` of `seed` over `N` zero bytes, which
is the single-zero-byte update `CALC_CRC_BYTE(crc, 0x00)` applied `N` times to `seed`. -/
theorem ground_truth_equivalence (T0 : Tables) (seed N : Nat) (hseed : seed < 2 ^ 32)
    (hN : N < 2 ^ 16) :
    calcCrcZeros (setup T0) seed N = calcCrcBuf (setup T0) seed (List.replicate N 0) ∧
    calcCrcBuf (setup T0) seed (List.replicate N 0)
      = (fun crc => CALC_CRC_BYTE (setup T0).crcDataTable crc 0x00)^[N] seed := by
  refine ⟨?_, calcCrcBuf_zeros_iterate _ N seed⟩
  rw [calcCrcZeros_built _ (setup_zbitTables_built T0) _ _ hseed, Nat.mod_eq_of_lt hN,
    calcCrcBuf_zeros _ (setup_dataTable_built T0)]

theorem ground_truth_equivalence_witness :
    (0xABCDEF01 : Nat) < 2 ^ 32 ∧ (1000 : Nat) < 2 ^ 16 ∧
    (calcCrcZeros (setup Tables.start) 0xABCDEF01 1000
      = calcCrcBuf (setup Tables.start) 0xABCDEF01 (List.replicate 1000 0) ∧
    calcCrcBuf (setup Tables.start) 0xABCDEF01 (List.replicate 1000 0)
      = (fun crc => CALC_CRC_BYTE (setup Tables.start).crcDataTable crc 0x00)^[1000]
          0xABCDEF01) :=
  ⟨by decide, by decide,
    ground_truth_equivalence Tables.start 0xABCDEF01 1000 (by decide) (by decide)⟩

/-- C3, map equivalence: after `setup`, for every count `K` and every 32-bit seed, the map
filled by `setupFullZeroMap(map, K)` gives `calcCrcFullMap(seed, map) =
calcCrcZeros(seed, K)`. -/
theorem map_equivalence (T0 : Tables) (map0 : CrcFullMap) (K seed : Nat)
    (hseed : seed < 2 ^ 32) :
    calcCrcFullMap seed (setupFullZeroMap (setup T0) map0 K) = calcCrcZeros (setup T0) seed K :=
  calcCrcFullMap_built (setup T0) _ K (setupFullZeroMap_get (setup T0) map0 K) seed hseed

theorem map_equivalence_witness :
    (0xABCDEF01 : Nat) < 2 ^ 32 ∧
    calcCrcFullMap 0xABCDEF01
        (setupFullZeroMap (setup Tables.start) Tables.start.zRun1492 1492)
      = calcCrcZeros (setup Tables.start) 0xABCDEF01 1492 :=
  ⟨by decide, map_equivalence Tables.start Tables.start.zRun1492 1492 0xABCDEF01 (by decide)⟩

/-- C4, linearity: for all CRC states `a` and `b` and every count `N`, whatever the
tables hold, `calcCrcZeros(a XOR b, N) = calcCrcZeros(a, N) XOR calcCrcZeros(b, N)`; the
cases where `a`, `b` or `a XOR b` is `0` take the early return and are included. -/
theorem calcCrcZeros_linearity (T : Tables) (a b N : Nat) :
    calcCrcZeros T (a ^^^ b) N = calcCrcZeros T a N ^^^ calcCrcZeros T b N :=
  calcCrcZeros_xor T a b N

/-- C5, header edit through the fixed-run map: after `setup`, for every 32-bit seed, every
two headers of the same length and every payload `P` of exactly 1492 bytes, the CRC of the
new header followed by `P` is the CRC of the old header followed by `P`, XOR
`calcCrcFullMap` of the XOR of the two header CRCs through `zRun1492`. -/
theorem header_edit_via_zRun1492 (T0 : Tables) (seed : Nat) (H_old H_new P : List Nat)
    (hseed : seed < 2 ^ 32) (_hlen : H_old.length = H_new.length)
    (hP : P.length = 1492) :
    calcCrcBuf (setup T0) seed (H_new ++ P)
      = calcCrcBuf (setup T0) seed (H_old ++ P)
        ^^^ calcCrcFullMap
          (calcCrcBuf (setup T0) seed H_old ^^^ calcCrcBuf (setup T0) seed H_new)
          (setup T0).zRun1492 := by
  have hd := setup_dataTable_built T0
  have hx : calcCrcBuf (setup T0) seed H_old ^^^ calcCrcBuf (setup T0) seed H_new < 2 ^ 32 :=
    Nat.xor_lt_two_pow (calcCrcBuf_lt _ hd _ _ hseed) (calcCrcBuf_lt _ hd _ _ hseed)
  rw [calcCrcFullMap_built (setup T0) _ 1492 (setup_zRun1492_get T0) _ hx,
    calcCrcZeros_built _ (setup_zbitTables_built T0) _ _ hx,
    Nat.mod_eq_of_lt (by decide : 1492 < 2 ^ COUNT_BIT_WIDTH), ← hP]
  exact header_edit_zeroRun _ hd seed H_old H_new P

theorem header_edit_via_zRun1492_witness :
    (0x12345678 : Nat) < 2 ^ 32 ∧ [1, 2, 3, 4, 5, 6, 7, 8].length = [1, 87, 3, 4, 9, 6, 7, 8].length ∧
    (List.replicate 1492 0x41).length = 1492 ∧
    calcCrcBuf (setup Tables.start) 0x12345678
        ([1, 87, 3, 4, 9, 6, 7, 8] ++ List.replicate 1492 0x41)
      = calcCrcBuf (setup Tables.start) 0x12345678
          ([1, 2, 3, 4, 5, 6, 7, 8] ++ List.replicate 1492 0x41)
        ^^^ calcCrcFullMap
          (calcCrcBuf (setup Tables.start) 0x12345678 [1, 2, 3, 4, 5, 6, 7, 8]
            ^^^ calcCrcBuf (setup Tables.start) 0x12345678 [1, 87, 3, 4, 9, 6, 7, 8])
          (setup Tables.start).zRun1492 :=
  ⟨by decide, by decide, List.length_replicate 1492 0x41,
    header_edit_via_zRun1492 Tables.start 0x12345678 [1, 2, 3, 4, 5, 6, 7, 8]
      [1, 87, 3, 4, 9, 6, 7, 8] (List.replicate 1492 0x41) (by decide) (by decide)
      (List.length_replicate 1492 0x41)⟩

/-- C6, out-of-range counts are silently truncated: for every seed and every count `N`
(in particular `N >= 2^16`), whatever the tables hold, `calcCrcZeros(seed, N) =
calcCrcZeros(seed, N mod 2^16)`: a value is returned, not an error, and only the low 16
bits of `N` influence it. -/
theorem calcCrcZeros_count_truncated (T : Tables) (seed N : Nat) :
    calcCrcZeros T seed N = calcCrcZeros T seed (N % 2 ^ 16) :=
  calcCrcZeros_low_bits T seed N

/-- C7, `setup` is deterministic and idempotent: the tables after `setup` do not depend on
the tables before the call, so running `setup` twice gives the same tables as running it
once. -/
theorem setup_deterministic_idempotent (T1 T2 : Tables) :
    setup T1 = setup T2 ∧ setup (setup T1) = setup T1 :=
  ⟨setup_eq T1 T2, setup_eq (setup T1) T1⟩

/-- C8, zero fixed point: for every count `N`, `calcCrcZeros(0, N) = 0`. -/
theorem calcCrcZeros_zero_fixed_point (T : Tables) (N : Nat) : calcCrcZeros T 0 N = 0 :=
  calcCrcZeros_of_zero T N

/-- C9, a zero-length run is the identity: for every seed, `calcCrcZeros(seed, 0) = seed`
whatever the tables hold; in particular seed `0x12345678` returns `0x12345678`. -/
theorem calcCrcZeros_zero_length (T : Tables) (seed : Nat) :
    calcCrcZeros T seed 0 = seed ∧ calcCrcZeros T 0x12345678 0 = 0x12345678 := by
  have h : ∀ s : Nat, calcCrcZeros T s 0 = s := by
    intro s
    unfold calcCrcZeros
    by_cases hs : s = 0
    · simp [hs]
    · simp [hs, calcCrcZerosLoop]
  exact ⟨h seed, h _⟩

/-- C10, the CRC of an empty buffer (`bufSize = 0`) is the seed, unchanged. -/
theorem calcCrcBuf_empty (T : Tables) (seed : Nat) : calcCrcBuf T seed [] = seed :=
  rfl

/-! ## The byte update as eight bit steps -/

theorem crcBitStep_eq_spec (x : Nat) : crcBitStep x = specBitStep x := by
  unfold crcBitStep specBitStep
  rw [Nat.and_one_is_mod]
  rcases Nat.mod_two_eq_zero_or_one x with h | h <;> simp [h]

theorem crcBitStep_shiftLeft (h k : Nat) : crcBitStep (h <<< (k + 1)) = h <<< k := by
  unfold crcBitStep
  have e : h <<< (k + 1) = 2 * (h <<< k) := by
    rw [Nat.shiftLeft_eq, Nat.shiftLeft_eq, Nat.pow_succ]
    ac_rfl
  rw [e, Nat.and_one_is_mod, Nat.shiftRight_eq_div_pow]
  simp

theorem crcBits8_shiftLeft (h : Nat) : crcBitStep^[8] (h <<< 8) = h := by
  simp only [Function.iterate_succ, Function.iterate_zero, Function.comp, id,
    crcBitStep_shiftLeft]
  exact Nat.shiftLeft_zero

theorem low_high_split (x : Nat) : x = (x &&& BYTE_MASK) ^^^ ((x >>> 8) <<< 8) := by
  apply Nat.eq_of_testBit_eq
  intro i
  have hm : BYTE_MASK = 2 ^ 8 - 1 := rfl
  rw [hm]
  simp only [Nat.testBit_xor, Nat.testBit_and, Nat.testBit_two_pow_sub_one,
    Nat.testBit_shiftLeft, Nat.testBit_shiftRight]
  by_cases h : i < 8
  · have h2 : ¬ i ≥ 8 := by omega
    simp [h, h2]
  · have h2 : i ≥ 8 := by omega
    have h3 : 8 + (i - 8) = i := by omega
    simp [h, h2, h3]

theorem crcBits8_split (x : Nat) :
    crcBitStep^[8] x = crcOfByte (x &&& BYTE_MASK) ^^^ (x >>> NUM_BITS_PER_BYTE) := by
  conv => lhs; rw [low_high_split x]
  rw [← crcOfByte_eq, crcOfByte_xor, crcOfByte_eq ((x >>> 8) <<< 8), crcBits8_shiftLeft]

theorem byteStep_eq_bits (crc b : Nat) (hb : b < 2 ^ 8) :
    byteStep crc b = crcBitStep^[8] (crc ^^^ b) := by
  rw [crcBits8_split, shiftRight_xor]
  have e : b >>> NUM_BITS_PER_BYTE = 0 := by
    rw [Nat.shiftRight_eq_div_pow]
    exact Nat.div_eq_of_lt hb
  rw [e, Nat.xor_zero]
  rfl

theorem byteStep_affine (s1 s2 b : Nat) :
    byteStep (s1 ^^^ s2) b = byteStep s1 b ^^^ byteStep s2 b ^^^ byteStep 0 b := by
  have h1 := byteStep_xor_same (s1 ^^^ s2) 0 b
  have h2 := byteStep_xor_same s1 s2 b
  rw [Nat.xor_zero] at h1
  rw [h2, ← h1, Nat.xor_assoc, Nat.xor_self, Nat.xor_zero]

theorem crcBitStep_eq_zero (x : Nat) (h : x < 2 ^ 32) (h0 : crcBitStep x = 0) : x = 0 := by
  unfold crcBitStep at h0
  rw [Nat.and_one_is_mod, Nat.shiftRight_eq_div_pow] at h0
  have h32 : (2 : Nat) ^ 32 = 4294967296 := by decide
  rw [h32] at h
  by_cases hodd : x % 2 ≠ 0
  · rw [if_pos hodd] at h0
    have e : x / 2 ^ 1 = CRC_POLY := Nat.xor_eq_zero.1 h0
    have hp : CRC_POLY = 3988292384 := rfl
    rw [hp] at e
    omega
  · rw [if_neg hodd] at h0
    omega

theorem crcBits_eq_zero (k : Nat) :
    ∀ x : Nat, x < 2 ^ 32 → crcBitStep^[k] x = 0 → x = 0 := by
  induction k with
  | zero => intro x _ h0; exact h0
  | succ k ih =>
    intro x hx h0
    rw [Function.iterate_succ_apply] at h0
    exact crcBitStep_eq_zero x hx (ih _ (crcBitStep_lt x hx) h0)

theorem zeroRun_eq_bits (n : Nat) : ∀ crc : Nat, zeroRun n crc = crcBitStep^[8 * n] crc := by
  induction n with
  | zero => intro crc; rfl
  | succ n ih =>
    intro crc
    rw [zeroRun_succ, ih, byteStep_eq_bits crc 0 (by decide), Nat.xor_zero,
      ← Function.iterate_add_apply]
    rfl

theorem zeroRun_eq_zero (n crc : Nat) (h : crc < 2 ^ 32) (h0 : zeroRun n crc = 0) : crc = 0 := by
  rw [zeroRun_eq_bits] at h0
  exact crcBits_eq_zero _ crc h h0

theorem zeroRun_inj (n a b : Nat) (ha : a < 2 ^ 32) (hb : b < 2 ^ 32)
    (h : zeroRun n a = zeroRun n b) : a = b := by
  have hx : zeroRun n (a ^^^ b) = 0 := by
    rw [zeroRun_xor, h, Nat.xor_self]
  exact Nat.xor_eq_zero.1 (zeroRun_eq_zero n _ (Nat.xor_lt_two_pow ha hb) hx)

theorem calcCrcBuf_foldl (T : Tables) (h : DataTableBuilt T.crcDataTable) (buf : List Nat) :
    ∀ crc : Nat, calcCrcBuf T crc buf = buf.foldl byteStep crc := by
  induction buf with
  | nil => intro crc; rfl
  | cons b p ih =>
    intro crc
    rw [List.foldl_cons, ← CALC_CRC_BYTE_eq _ h]
    exact ih _

/-! ## Further claims -/

/-- C11, meaning of a cell of the zero-bit tables: after `setup`, for every exponent
`z < 16` and every bit position `c < 32`, `crcZbitTables[z][c]` is `calcCrcBuf` of the
single-bit state `2^c` over exactly `2^z` zero bytes, that is `2^z` zero-byte updates
`CALC_CRC_BYTE(crc, 0x00)` of `2^c`. -/
theorem crcZbitTables_cell_meaning (T0 : Tables) (z c : Nat) (hz : z < COUNT_BIT_WIDTH)
    (hc : c < CRC_BIT_WIDTH) :
    ((setup T0).crcZbitTables.get z hz).get c hc
        = calcCrcBuf (setup T0) (2 ^ c) (List.replicate (2 ^ z) 0) ∧
    ((setup T0).crcZbitTables.get z hz).get c hc
        = (fun crc => CALC_CRC_BYTE (setup T0).crcDataTable crc 0x00)^[2 ^ z] (2 ^ c) := by
  have h1 : ((setup T0).crcZbitTables.get z hz).get c hc
      = calcCrcBuf (setup T0) (2 ^ c) (List.replicate (2 ^ z) 0) := by
    rw [setup_zbitTables_built T0 z hz c hc, calcCrcBuf_zeros _ (setup_dataTable_built T0)]
  exact ⟨h1, h1.trans (calcCrcBuf_zeros_iterate _ _ _)⟩

theorem crcZbitTables_cell_meaning_witness :
    ∃ (hz : 3 < COUNT_BIT_WIDTH) (hc : 5 < CRC_BIT_WIDTH),
      ((setup Tables.start).crcZbitTables.get 3 hz).get 5 hc
          = calcCrcBuf (setup Tables.start) (2 ^ 5) (List.replicate (2 ^ 3) 0) ∧
      ((setup Tables.start).crcZbitTables.get 3 hz).get 5 hc
          = (fun crc => CALC_CRC_BYTE (setup Tables.start).crcDataTable crc 0x00)^[2 ^ 3]
              (2 ^ 5) :=
  ⟨by decide, by decide, crcZbitTables_cell_meaning Tables.start 3 5 (by decide) (by decide)⟩

/-- C12, the table-driven byte update refines the bitwise CRC: after `setup`, for every
`crc` and every byte `b`, `CALC_CRC_BYTE(crc, b)`, which is
`crcDataTable[(crc XOR b) & 0xFF] XOR (crc >> 8)`, is the single-bit step of the
specification applied 8 times to `crc XOR b`. -/
theorem CALC_CRC_BYTE_refines_bit_steps (T0 : Tables) (crc b : Nat) (hb : b < 256) :
    CALC_CRC_BYTE (setup T0).crcDataTable crc b
        = (setup T0).crcDataTable.get ((crc ^^^ b) &&& 0xFF)
            (Nat.and_lt_two_pow _ (by decide) : (crc ^^^ b) &&& 0xFF < 2 ^ 8)
          ^^^ (crc >>> 8) ∧
    CALC_CRC_BYTE (setup T0).crcDataTable crc b = specBitStep^[8] (crc ^^^ b) := by
  refine ⟨rfl, ?_⟩
  have e : specBitStep = crcBitStep := funext (fun x => (crcBitStep_eq_spec x).symm)
  rw [e, CALC_CRC_BYTE_eq _ (setup_dataTable_built T0), byteStep_eq_bits crc b hb]

theorem CALC_CRC_BYTE_refines_bit_steps_witness :
    (0x41 : Nat) < 256 ∧
    (CALC_CRC_BYTE (setup Tables.start).crcDataTable 0x12345678 0x41
        = (setup Tables.start).crcDataTable.get ((0x12345678 ^^^ 0x41) &&& 0xFF)
            (Nat.and_lt_two_pow _ (by decide) : (0x12345678 ^^^ 0x41) &&& 0xFF < 2 ^ 8)
          ^^^ (0x12345678 >>> 8) ∧
    CALC_CRC_BYTE (setup Tables.start).crcDataTable 0x12345678 0x41
        = specBitStep^[8] (0x12345678 ^^^ 0x41)) :=
  ⟨by decide, CALC_CRC_BYTE_refines_bit_steps Tables.start 0x12345678 0x41 (by decide)⟩

/-- C13 as stated fails: after `setup`, with the byte `b = 0x41` and the states
`s1 = 0x12345678`, `s2 = 0x0F0F0F0F`, `CALC_CRC_BYTE(s1 XOR s2, b)` differs from
`CALC_CRC_BYTE(s1, b) XOR CALC_CRC_BYTE(s2, b)`. -/
theorem CALC_CRC_BYTE_not_linear_for_nonzero_byte :
    ¬ (CALC_CRC_BYTE (setup Tables.start).crcDataTable (0x12345678 ^^^ 0x0F0F0F0F) 0x41
        = CALC_CRC_BYTE (setup Tables.start).crcDataTable 0x12345678 0x41
          ^^^ CALC_CRC_BYTE (setup Tables.start).crcDataTable 0x0F0F0F0F 0x41) := by
  simp only [CALC_CRC_BYTE_eq _ (setup_dataTable_built Tables.start)]
  decide

/-- C13 amended: after `setup`, for every byte `b` and all states `s1`, `s2`, the byte
update is affine over GF(2): `CALC_CRC_BYTE(s1 XOR s2, b) = CALC_CRC_BYTE(s1, b) XOR
CALC_CRC_BYTE(s2, b) XOR CALC_CRC_BYTE(0, b)`; for the zero byte `CALC_CRC_BYTE(0, 0x00)`
is `0` and the update is linear. -/
theorem CALC_CRC_BYTE_affine (T0 : Tables) (s1 s2 b : Nat) :
    CALC_CRC_BYTE (setup T0).crcDataTable (s1 ^^^ s2) b
        = CALC_CRC_BYTE (setup T0).crcDataTable s1 b
          ^^^ CALC_CRC_BYTE (setup T0).crcDataTable s2 b
          ^^^ CALC_CRC_BYTE (setup T0).crcDataTable 0 b ∧
    CALC_CRC_BYTE (setup T0).crcDataTable 0 0x00 = 0 ∧
    CALC_CRC_BYTE (setup T0).crcDataTable (s1 ^^^ s2) 0x00
        = CALC_CRC_BYTE (setup T0).crcDataTable s1 0x00
          ^^^ CALC_CRC_BYTE (setup T0).crcDataTable s2 0x00 := by
  simp only [CALC_CRC_BYTE_eq _ (setup_dataTable_built T0)]
  exact ⟨byteStep_affine s1 s2 b, byteStep_zero, byteStep_xor s1 s2⟩

/-- C16, zero runs compose additively: after `setup`, for every 32-bit seed and all counts
`M`, `N` with `M + N < 2^16`, `calcCrcZeros(calcCrcZeros(seed, M), N) =
calcCrcZeros(seed, M + N)`; hence runs commute, and for `z < 15` applying the `2^z` run
twice is the `2^(z+1)` run. -/
theorem calcCrcZeros_compose (T0 : Tables) (seed M N : Nat) (hseed : seed < 2 ^ 32)
    (hMN : M + N < 2 ^ 16) :
    calcCrcZeros (setup T0) (calcCrcZeros (setup T0) seed M) N
        = calcCrcZeros (setup T0) seed (M + N) ∧
    calcCrcZeros (setup T0) (calcCrcZeros (setup T0) seed M) N
        = calcCrcZeros (setup T0) (calcCrcZeros (setup T0) seed N) M ∧
    (∀ z, z < 15 →
      calcCrcZeros (setup T0) (calcCrcZeros (setup T0) seed (2 ^ z)) (2 ^ z)
        = calcCrcZeros (setup T0) seed (2 ^ (z + 1))) := by
  have hz := setup_zbitTables_built T0
  have key : ∀ m n, m + n < 2 ^ 16 →
      calcCrcZeros (setup T0) (calcCrcZeros (setup T0) seed m) n
        = zeroRun (m + n) seed := by
    intro m n hmn
    have hm : m < 2 ^ 16 := Nat.lt_of_le_of_lt (Nat.le_add_right m n) hmn
    have hn : n < 2 ^ 16 := Nat.lt_of_le_of_lt (Nat.le_add_left n m) hmn
    rw [calcCrcZeros_built _ hz seed m hseed, Nat.mod_eq_of_lt hm,
      calcCrcZeros_built _ hz _ n (zeroRun_lt _ _ hseed), Nat.mod_eq_of_lt hn, zeroRun_add]
  refine ⟨?_, ?_, ?_⟩
  · rw [key M N hMN, calcCrcZeros_built _ hz seed _ hseed, Nat.mod_eq_of_lt hMN]
  · rw [key M N hMN, key N M (by rw [Nat.add_comm]; exact hMN), Nat.add_comm]
  · intro z hlt
    have h2 : 2 ^ (z + 1) < 2 ^ 16 := Nat.pow_lt_pow_right (by decide) (by omega)
    have e : 2 ^ z + 2 ^ z = 2 ^ (z + 1) := by rw [Nat.pow_succ]; omega
    rw [key _ _ (by rw [e]; exact h2), e, calcCrcZeros_built _ hz seed _ hseed,
      Nat.mod_eq_of_lt h2]

theorem calcCrcZeros_compose_witness :
    (0x12345678 : Nat) < 2 ^ 32 ∧ 1000 + 492 < 2 ^ 16 ∧
    (calcCrcZeros (setup Tables.start) (calcCrcZeros (setup Tables.start) 0x12345678 1000) 492
        = calcCrcZeros (setup Tables.start) 0x12345678 (1000 + 492) ∧
    calcCrcZeros (setup Tables.start) (calcCrcZeros (setup Tables.start) 0x12345678 1000) 492
        = calcCrcZeros (setup Tables.start)
            (calcCrcZeros (setup Tables.start) 0x12345678 492) 1000 ∧
    (∀ z, z < 15 →
      calcCrcZeros (setup Tables.start)
          (calcCrcZeros (setup Tables.start) 0x12345678 (2 ^ z)) (2 ^ z)
        = calcCrcZeros (setup Tables.start) 0x12345678 (2 ^ (z + 1)))) :=
  ⟨by decide, by decide,
    calcCrcZeros_compose Tables.start 0x12345678 1000 492 (by decide) (by decide)⟩

/-- C17, the zero-run operator is injective: after `setup`, for every count `N` and all
32-bit seeds `a`, `b`, `calcCrcZeros(a, N) = calcCrcZeros(b, N)` exactly when `a = b`, and
`calcCrcZeros(a, N) = 0` exactly when `a = 0`. -/
theorem calcCrcZeros_injective (T0 : Tables) (a b N : Nat) (ha : a < 2 ^ 32)
    (hb : b < 2 ^ 32) :
    (calcCrcZeros (setup T0) a N = calcCrcZeros (setup T0) b N ↔ a = b) ∧
    (calcCrcZeros (setup T0) a N = 0 ↔ a = 0) := by
  have hz := setup_zbitTables_built T0
  rw [calcCrcZeros_built _ hz a N ha, calcCrcZeros_built _ hz b N hb]
  refine ⟨⟨fun h => zeroRun_inj _ a b ha hb h, fun h => by rw [h]⟩, ?_⟩
  exact ⟨fun h => zeroRun_eq_zero _ a ha h, fun h => by rw [h, zeroRun_of_zero]⟩

theorem calcCrcZeros_injective_witness :
    (0x12345678 : Nat) < 2 ^ 32 ∧ (0x12345679 : Nat) < 2 ^ 32 ∧
    ((calcCrcZeros (setup Tables.start) 0x12345678 70000
        = calcCrcZeros (setup Tables.start) 0x12345679 70000 ↔ 0x12345678 = 0x12345679) ∧
    (calcCrcZeros (setup Tables.start) 0x12345678 70000 = 0 ↔ 0x12345678 = 0)) :=
  ⟨by decide, by decide,
    calcCrcZeros_injective Tables.start 0x12345678 0x12345679 70000 (by decide) (by decide)⟩

/-- C18, the buffer CRC is resumable: for every seed and all byte sequences `A` and `B`,
`calcCrcBuf(seed, A ++ B) = calcCrcBuf(calcCrcBuf(seed, A), B)`, whatever the tables
hold. -/
theorem calcCrcBuf_resumable (T : Tables) (seed : Nat) (A B : List Nat) :
    calcCrcBuf T seed (A ++ B) = calcCrcBuf T (calcCrcBuf T seed A) B :=
  calcCrcBuf_append T A B seed

theorem check_value_fold :
    List.foldl byteStep 0xFFFFFFFF [0x31, 0x32, 0x33, 0x34, 0x35, 0x36, 0x37, 0x38, 0x39]
        ^^^ 0xFFFFFFFF = 0xCBF43926 := by
  decide!

/-- C19, the byte table implements the standard reflected CRC-32: after `setup`,
`calcCrcBuf(0xFFFFFFFF, "123456789") XOR 0xFFFFFFFF = 0xCBF43926`, `crcDataTable[0] = 0`
and `crcDataTable[128] = 0xEDB88320`. -/
theorem crc32_check_value (T0 : Tables) :
    calcCrcBuf (setup T0) 0xFFFFFFFF [0x31, 0x32, 0x33, 0x34, 0x35, 0x36, 0x37, 0x38, 0x39]
        ^^^ 0xFFFFFFFF = 0xCBF43926 ∧
    (setup T0).crcDataTable.get 0 (by decide) = 0 ∧
    (setup T0).crcDataTable.get 128 (by decide) = 0xEDB88320 := by
  have hd := setup_dataTable_built T0
  refine ⟨?_, ?_, ?_⟩
  · rw [calcCrcBuf_foldl _ hd]
    exact check_value_fold
  · rw [hd 0 (by decide)]
    decide
  · rw [hd 128 (by decide)]
    decide

/-! ## A run of `2^16` zero bytes, by repeated squaring -/

theorem crcBits_xor (n : Nat) :
    ∀ a b : Nat, crcBitStep^[n] (a ^^^ b) = crcBitStep^[n] a ^^^ crcBitStep^[n] b := by
  induction n with
  | zero => intro a b; rfl
  | succ n ih =>
    intro a b
    rw [Function.iterate_succ_apply, Function.iterate_succ_apply,
      Function.iterate_succ_apply, crcBitStep_xor, ih]

theorem crcBits_of_zero (n : Nat) : crcBitStep^[n] 0 = 0 := by
  induction n with
  | zero => rfl
  | succ n ih => rw [Function.iterate_succ_apply, crcBitStep_zero, ih]

theorem crcBits_lt (n : Nat) : ∀ x : Nat, x < 2 ^ 32 → crcBitStep^[n] x < 2 ^ 32 := by
  induction n with
  | zero => intro x h; exact h
  | succ n ih =>
    intro x h
    rw [Function.iterate_succ_apply]
    exact ih _ (crcBitStep_lt x h)

theorem crcBitStep_two_pow (k : Nat) : crcBitStep (2 ^ (k + 1)) = 2 ^ k := by
  have h := crcBitStep_shiftLeft 1 k
  rwa [Nat.one_shiftLeft, Nat.one_shiftLeft] at h

theorem mulLoop_bits (s n : Nat) :
    ∀ k acc, mulLoop s (k + 1) (crcBitStep^[n] (2 ^ k)) acc
      = acc ^^^ crcBitStep^[n] (s % 2 ^ (k + 1)) := by
  intro k
  induction k with
  | zero =>
    intro acc
    simp only [mulLoop, Nat.pow_zero, Nat.zero_add, Nat.pow_one]
    rw [Nat.testBit_zero]
    rcases Nat.mod_two_eq_zero_or_one s with h | h
    · simp [h, crcBits_of_zero]
    · simp [h]
  | succ k ih =>
    intro acc
    rw [mulLoop, ← Function.iterate_succ_apply' crcBitStep n, Function.iterate_succ_apply,
      crcBitStep_two_pow, ih, mod_two_pow_succ_xor s (k + 1), crcBits_xor]
    cases s.testBit (k + 1)
    · simp [crcBits_of_zero]
    · simp only [if_true]
      ac_rfl

theorem polyMul_bits (s n : Nat) (hs : s < 2 ^ 32) :
    polyMul (crcBitStep^[n] (2 ^ 31)) s = crcBitStep^[n] s := by
  unfold polyMul
  rw [mulLoop_bits s n 31 0, Nat.zero_xor, Nat.mod_eq_of_lt hs]

theorem crcBits_double (n m a b : Nat) (hm : m = n + n) (ha : crcBitStep^[n] (2 ^ 31) = a)
    (hb : polyMul a a = b) : crcBitStep^[m] (2 ^ 31) = b := by
  have hlt : a < 2 ^ 32 := by
    rw [← ha]
    exact crcBits_lt n _ (by decide)
  rw [hm, Function.iterate_add_apply, ha, ← polyMul_bits a n hlt, ha, hb]

theorem crcBits_two_pow_19 : crcBitStep^[524288] (2 ^ 31) = 838779241 := by
  have h0 : crcBitStep^[1] (2 ^ 31) = 1073741824 := by decide
  have h1 := crcBits_double 1 2 _ 536870912 (by decide) h0 (by decide!)
  have h2 := crcBits_double 2 4 _ 134217728 (by decide) h1 (by decide!)
  have h3 := crcBits_double 4 8 _ 8388608 (by decide) h2 (by decide!)
  have h4 := crcBits_double 8 16 _ 32768 (by decide) h3 (by decide!)
  have h5 := crcBits_double 16 32 _ 3988292384 (by decide) h4 (by decide!)
  have h6 := crcBits_double 32 64 _ 2984685714 (by decide) h5 (by decide!)
  have h7 := crcBits_double 64 128 _ 2691310871 (by decide) h6 (by decide!)
  have h8 := crcBits_double 128 256 _ 3982654894 (by decide) h7 (by decide!)
  have h9 := crcBits_double 256 512 _ 2295415911 (by decide) h8 (by decide!)
  have h10 := crcBits_double 512 1024 _ 3619421802 (by decide) h9 (by decide!)
  have h11 := crcBits_double 1024 2048 _ 3963911953 (by decide) h10 (by decide!)
  have h12 := crcBits_double 2048 4096 _ 2390663536 (by decide) h11 (by decide!)
  have h13 := crcBits_double 4096 8192 _ 1680310286 (by decide) h12 (by decide!)
  have h14 := crcBits_double 8192 16384 _ 1296546528 (by decide) h13 (by decide!)
  have h15 := crcBits_double 16384 32768 _ 167662735 (by decide) h14 (by decide!)
  have h16 := crcBits_double 32768 65536 _ 2206543119 (by decide) h15 (by decide!)
  have h17 := crcBits_double 65536 131072 _ 808857370 (by decide) h16 (by decide!)
  have h18 := crcBits_double 131072 262144 _ 2069535939 (by decide) h17 (by decide!)
  exact crcBits_double 262144 524288 _ 838779241 (by decide) h18 (by decide!)

theorem zeroRun_65536_one : zeroRun 65536 1 = 457511406 := by
  rw [zeroRun_eq_bits, ← polyMul_bits 1 _ (by decide), crcBits_two_pow_19]
  decide!

/-- C14, the unchecked count precondition is a real hazard: after `setup` there are a
32-bit seed and a count `N >= 2^16` for which `calcCrcZeros(seed, N)` differs from
`calcCrcBuf` of `seed` over `N` zero bytes; with `seed = 1` and `N = 65536` the first is
`1` and the second is `457511406`. -/
theorem count_precondition_hazard (T0 : Tables) :
    calcCrcZeros (setup T0) 1 65536 = 1 ∧
    calcCrcBuf (setup T0) 1 (List.replicate 65536 0) = 457511406 ∧
    ∃ seed N, seed < 2 ^ 32 ∧ 2 ^ 16 ≤ N ∧ N < 2 ^ 32 ∧
      calcCrcZeros (setup T0) seed N ≠ calcCrcBuf (setup T0) seed (List.replicate N 0) := by
  have h1 : calcCrcZeros (setup T0) 1 65536 = 1 := by
    rw [calcCrcZeros_built _ (setup_zbitTables_built T0) 1 65536 (by decide)]
    rfl
  have h2 : calcCrcBuf (setup T0) 1 (List.replicate 65536 0) = 457511406 := by
    rw [calcCrcBuf_zeros _ (setup_dataTable_built T0), zeroRun_65536_one]
  refine ⟨h1, h2, 1, 65536, by decide, by decide, by decide, ?_⟩
  rw [h1, h2]
  decide

/-! ## Every access is inside its table -/

theorem CArray.getChecked_eq {α : Type} {n : Nat} (a : CArray α n) (i : Nat) (h : i < n) :
    a.getChecked i = some (a.get i h) := by
  unfold CArray.getChecked
  rw [dif_pos h]

theorem CArray.getChecked_outside {α : Type} {n : Nat} (a : CArray α n) (i : Nat)
    (h : n ≤ i) : a.getChecked i = none := by
  unfold CArray.getChecked
  rw [dif_neg (Nat.not_lt.2 h)]

theorem CArray.setChecked_eq {α : Type} {n : Nat} (a : CArray α n) (i : Nat) (h : i < n)
    (v : α) : a.setChecked i v = some (a.set i h v) := by
  unfold CArray.setChecked
  rw [dif_pos h]

theorem forLoopCheckedAux_eq {σ : Type} (n : Nat) (bodyC : Nat → σ → Option σ)
    (body : (i : Nat) → i < n → σ → σ)
    (h : ∀ i (hi : i < n) (s : σ), bodyC i s = some (body i hi s)) (s : σ) :
    ∀ k (hk : k ≤ n), forLoopCheckedAux bodyC k s = some (forLoopAux n body k hk s) := by
  intro k
  induction k with
  | zero => intro hk; rfl
  | succ k ih =>
    intro hk
    rw [forLoopCheckedAux, ih (Nat.le_of_succ_le hk), Option.some_bind, h k hk]
    rfl

theorem forLoopChecked_eq {σ : Type} (n : Nat) (bodyC : Nat → σ → Option σ)
    (body : (i : Nat) → i < n → σ → σ)
    (h : ∀ i (hi : i < n) (s : σ), bodyC i s = some (body i hi s)) (s : σ) :
    forLoopChecked n bodyC s = some (forLoop n body s) :=
  forLoopCheckedAux_eq n bodyC body h s n (Nat.le_refl n)

theorem CALC_CRC_BYTE_checked_eq (dt : CrcByteTable) (crcIn b : Nat) :
    CALC_CRC_BYTE_checked dt crcIn b = some (CALC_CRC_BYTE dt crcIn b) := by
  unfold CALC_CRC_BYTE_checked
  rw [CArray.getChecked_eq dt _
    (Nat.and_lt_two_pow _ (by decide) : (crcIn ^^^ b) &&& BYTE_MASK < 2 ^ 8)]
  rfl

theorem calcCrcBufChecked_eq (T : Tables) (buf : List Nat) :
    ∀ crc : Nat, calcCrcBufChecked T crc buf = some (calcCrcBuf T crc buf) := by
  induction buf with
  | nil => intro crc; rfl
  | cons b p ih =>
    intro crc
    rw [calcCrcBufChecked, CALC_CRC_BYTE_checked_eq, Option.some_bind, ih]
    rfl

theorem applyBitTableChecked_eq (zt : CArray CrcBitTable COUNT_BIT_WIDTH) (z : Nat)
    (hz : z < COUNT_BIT_WIDTH) (crc : Nat) :
    applyBitTableChecked zt z crc = some (applyBitTable (zt.get z hz) crc) := by
  unfold applyBitTableChecked applyBitTable
  rw [forLoopChecked_eq CRC_BIT_WIDTH _
    (fun c hc (st : Nat × Nat) =>
      ((if crc &&& st.2 ≠ 0 then st.1 ^^^ (zt.get z hz).get c hc else st.1), shl32 st.2 1))]
  · rfl
  · intro c hc st
    rw [CArray.getChecked_eq zt z hz, Option.some_bind, CArray.getChecked_eq _ c hc]
    by_cases hb : crc &&& st.2 ≠ 0
    · rw [if_pos hb, if_pos hb]
      rfl
    · rw [if_neg hb, if_neg hb]

theorem calcCrcZerosLoopChecked_eq (T : Tables) (numZeros : Nat) :
    ∀ fuel z zerosMask crc, COUNT_BIT_WIDTH - z ≤ fuel →
      calcCrcZerosLoopChecked T numZeros fuel z zerosMask crc
        = some (calcCrcZerosLoop T numZeros fuel z zerosMask crc) := by
  intro fuel
  induction fuel with
  | zero =>
    intro z zerosMask crc h
    have hz : ¬ (z < COUNT_BIT_WIDTH ∧ numZeros ≥ zerosMask) := fun hc => by
      have := hc.1
      omega
    rw [calcCrcZerosLoopChecked, if_neg hz]
    rfl
  | succ fuel ih =>
    intro z zerosMask crc h
    rw [calcCrcZerosLoopChecked, calcCrcZerosLoop]
    by_cases hc : z < COUNT_BIT_WIDTH ∧ numZeros ≥ zerosMask
    · rw [if_pos hc, dif_pos hc]
      have hf : COUNT_BIT_WIDTH - (z + 1) ≤ fuel := by omega
      by_cases hb : numZeros &&& zerosMask ≠ 0
      · rw [if_pos hb, if_pos hb, applyBitTableChecked_eq _ z hc.1, Option.some_bind,
          ih _ _ _ hf]
      · rw [if_neg hb, if_neg hb, Option.some_bind, ih _ _ _ hf]
    · rw [if_neg hc, dif_neg hc]

theorem calcCrcZerosChecked_eq (T : Tables) (crcIn numZeros : Nat) :
    calcCrcZerosChecked T crcIn numZeros = some (calcCrcZeros T crcIn numZeros) := by
  unfold calcCrcZerosChecked calcCrcZeros
  by_cases h : crcIn = 0
  · rw [if_pos h, if_pos h]
  · rw [if_neg h, if_neg h]
    exact calcCrcZerosLoopChecked_eq T numZeros _ _ _ _ (by decide)

theorem calcCrcFullMapChecked_eq (crcIn : Nat) (map : CrcFullMap) :
    calcCrcFullMapChecked crcIn map = some (calcCrcFullMap crcIn map) := by
  unfold calcCrcFullMapChecked calcCrcFullMap
  rw [forLoopChecked_eq CRC_BYTE_WIDTH _
    (fun b hb (st : Nat × Nat) =>
      (st.1 ^^^ (map.get b hb).get (st.2 % NUM_BYTE_VALUES) (Nat.mod_lt _ (by decide)),
        st.2 >>> NUM_BITS_PER_BYTE))]
  · rfl
  · intro b hb st
    rw [CArray.getChecked_eq map b hb, Option.some_bind,
      CArray.getChecked_eq _ _ (Nat.mod_lt _ (by decide))]
    rfl

theorem setMapChecked_eq (map : CrcFullMap) (b : Nat) (hb : b < CRC_BYTE_WIDTH) (i : Nat)
    (hi : i < NUM_BYTE_VALUES) (v : Nat) :
    setMapChecked map b i v = some (setMap map b hb i hi v) := by
  unfold setMapChecked setMap
  rw [CArray.getChecked_eq map b hb, Option.some_bind, CArray.setChecked_eq _ i hi,
    Option.some_bind, CArray.setChecked_eq map b hb]

theorem setupFullZeroMapChecked_eq (T : Tables) (map : CrcFullMap) (numZeros : Nat) :
    setupFullZeroMapChecked T map numZeros = some (setupFullZeroMap T map numZeros) := by
  unfold setupFullZeroMapChecked setupFullZeroMap
  apply forLoopChecked_eq
  intro i hi m
  apply forLoopChecked_eq
  intro b hb m1
  rw [calcCrcZerosChecked_eq, Option.some_bind, setMapChecked_eq m1 b hb i hi]

/-- C15, totality and in-bounds table access: for every seed, every count, every byte
buffer and every table contents, `calcCrcBuf`, `calcCrcZeros`, `calcCrcFullMap` and
`setupFullZeroMap` end, and with every table access checked against the size of its table
(`crcDataTable` index below 256, `crcZbitTables` indices below 16 and 32, map indices below
4 and 256) none of them fails: each returns the value of the operation. -/
theorem operations_total_in_bounds (T : Tables) (seed count : Nat) (buf : List Nat)
    (map : CrcFullMap) :
    calcCrcBufChecked T seed buf = some (calcCrcBuf T seed buf) ∧
    calcCrcZerosChecked T seed count = some (calcCrcZeros T seed count) ∧
    calcCrcFullMapChecked seed map = some (calcCrcFullMap seed map) ∧
    setupFullZeroMapChecked T map count = some (setupFullZeroMap T map count) :=
  ⟨calcCrcBufChecked_eq T buf seed, calcCrcZerosChecked_eq T seed count,
    calcCrcFullMapChecked_eq seed map, setupFullZeroMapChecked_eq T map count⟩

end CrcIncremental
